import Mathlib

/-!
Verification development for the reflowable-EPUB rendering core found in
`src/document/epub/mod.rs`.

Embedding conventions:

* Machine integers (`i32`, `usize`) are modelled by `Int` and `Nat`; the code
  under scrutiny never overflows the ranges the claims exercise.  Rust's `/` on
  `i32` truncates toward zero, so it is rendered as `Int.tdiv`.
* Rust `f32` arithmetic is modelled by exact rational arithmetic (`ℚ`);
  `f32::round` ("round half away from zero") becomes `roundAway`, and `as i32`
  truncation becomes `truncQ`.
* External collaborators (the font service, the `paragraph_breaker` crate, the
  `xi_unicode` line-break iterator, the `hyphenation` dictionaries, the zip
  archive and the raster decoder) are not part of this repository; functions
  consuming them are parameterised over those services.
* The per-spine display-list cache of `EpubDocument` only memoises the
  deterministic `build_display_list`; the navigation functions are therefore
  modelled as pure functions of a map `dls : Nat → List Page` from spine index
  to the display list that `build_display_list` yields for that index.
* Rust code that indexes a vector (`display_list[page_index]`) panics when the
  index is out of bounds; the total model uses `List.get?` and returns `none`
  in that situation, which is recorded next to each affected claim.
-/

namespace Plato

/-- Axis-aligned pixel rectangle, mirroring `geom::Rectangle` (min/max corners). -/
structure Rect where
  minX : Int
  minY : Int
  maxX : Int
  maxY : Int
deriving DecidableEq, Repr

/-- Four-edge pixel lengths, mirroring `geom::Edge`. -/
structure Edge where
  top : Int
  right : Int
  bottom : Int
  left : Int
deriving DecidableEq, Repr

/-- Modelled from the spec: `Edge::uniform` (the `geom` module is not under
`src/`); a uniform edge repeats one value on all four sides. -/
def Edge.uniform (v : Int) : Edge := ⟨v, v, v, v⟩

/-- Modelled from the spec: `Rectangle::shrink` (the `geom` module is not under
`src/`); shrinking a rectangle by an edge moves each side inward by the
corresponding inset. -/
def shrinkRect (r : Rect) (e : Edge) : Rect :=
  ⟨r.minX + e.left, r.minY + e.top, r.maxX - e.right, r.maxY - e.bottom⟩

/-- Draw command, mirroring `layout::DrawCommand`.  The rendering-only fields of
the Rust `TextCommand`/`ImageCommand` (glyph plan, font kind/style/weight/size,
color, position, scale, archive path) never influence the claims below and are
elided; the fields the navigation and query code reads (`offset`, `rect`,
`text`, `uri`) are kept. -/
inductive DrawCommand
  | text (offset : Nat) (rect : Rect) (txt : String) (uri : Option String)
  | image (offset : Nat) (rect : Rect) (uri : Option String)
  | marker (offset : Nat)
deriving DecidableEq, Repr

/-- Content offset carried by every draw command (`DrawCommand::offset`). -/
def DrawCommand.offset : DrawCommand → Nat
  | .text o _ _ _ => o
  | .image o _ _ => o
  | .marker o => o

/-- A page is an ordered list of draw commands (`type Page = Vec<DrawCommand>`). -/
abbrev Page := List DrawCommand

/-- Loop body of `EpubDocument::vertebra_coordinates_with` specialised to the
offset test `offset < end_offset` (mod.rs:173-195): walk the spine keeping the
running start offset, and return `(index, start_offset)` for the first chunk
whose end offset exceeds the searched offset. -/
def vertebraCoordinatesAux : List Nat → Nat → Nat → Nat → Option (Nat × Nat)
  | [], _, _, _ => none
  | size :: rest, offset, index, startOffset =>
      if offset < startOffset + size then some (index, startOffset)
      else vertebraCoordinatesAux rest offset (index + 1) (startOffset + size)

/-- `EpubDocument::vertebra_coordinates` (mod.rs:191-195): map a global offset
to the owning spine index and that chunk's global start offset. -/
def vertebraCoordinates (spine : List Nat) (offset : Nat) : Option (Nat × Nat) :=
  vertebraCoordinatesAux spine offset 0 0

/-- First draw command offset of a page (`page.first().map(|dc| dc.offset())`). -/
def pageFirstOffset (page : Page) : Option Nat :=
  page.head?.map DrawCommand.offset

/-- `EpubDocument::page_index` (mod.rs:272-292), after the display list for the
chunk has been built: select the page whose offset range covers `offset`.  The
cache-filling side effect is factored out (the builder is deterministic, so the
display list is passed in directly). -/
def pageIndexPure (dl : List Page) (offset : Nat) : Nat :=
  if dl.length < 2 ∨
     ((dl.get? 1).bind pageFirstOffset).map (fun f => decide (offset < f)) = some true then
    0
  else if ((dl.get? (dl.length - 1)).bind pageFirstOffset).map
            (fun f => decide (f ≤ offset)) = some true then
    dl.length - 1
  else
    match (List.range' 1 (dl.length - 2)).find? (fun i =>
        (((dl.get? i).bind pageFirstOffset).map (fun f => decide (f ≤ offset)) == some true) &&
        (((dl.get? (i + 1)).bind pageFirstOffset).map (fun f => decide (offset < f)) == some true)) with
    | some i => i
    | none => 0

/-- `resolve_location(Location::Exact(offset))` (mod.rs:2210-2216): find the
owning chunk, select the covering page, and return its first command's offset.
The Rust code indexes `display_list[page_index]`, which panics when the display
list is empty; the model returns `none` there. -/
def resolveLocationExact (spine : List Nat) (dls : Nat → List Page) (offset : Nat) : Option Nat :=
  match vertebraCoordinates spine offset with
  | none => none
  | some (index, _startOffset) =>
      ((dls index).get? (pageIndexPure (dls index) offset)).bind pageFirstOffset

/-- `resolve_location(Location::Previous(offset))` (mod.rs:2217-2235): one page
back inside the chunk, else the last page of the previous chunk. -/
def resolveLocationPrevious (spine : List Nat) (dls : Nat → List Page) (offset : Nat) :
    Option Nat :=
  match vertebraCoordinates spine offset with
  | none => none
  | some (index, _startOffset) =>
      let dl := dls index
      let pidx := pageIndexPure dl offset
      if 0 < pidx then (dl.get? (pidx - 1)).bind pageFirstOffset
      else if index = 0 then none
      else ((dls (index - 1)).getLast?).bind pageFirstOffset

/-- `resolve_location(Location::Next(offset))` (mod.rs:2236-2253): one page
forward inside the chunk, else the first page of the next chunk. -/
def resolveLocationNext (spine : List Nat) (dls : Nat → List Page) (offset : Nat) :
    Option Nat :=
  match vertebraCoordinates spine offset with
  | none => none
  | some (index, _startOffset) =>
      let dl := dls index
      let pidx := pageIndexPure dl offset
      if pidx < dl.length - 1 then (dl.get? (pidx + 1)).bind pageFirstOffset
      else if index = spine.length - 1 then none
      else ((dls (index + 1)).head?).bind pageFirstOffset

/-- `document::Location` (the enum lives in `document/mod.rs`, outside `src/`;
its five variants are given by the spec's navigation section). -/
inductive Location
  | exact (offset : Nat)
  | previous (offset : Nat)
  | next (offset : Nat)
  | uri (s : String)
  | localUri (offset : Nat) (s : String)
deriving DecidableEq, Repr

/-- `EpubDocument::resolve_location` (mod.rs:2204-2275).  The `Uri`/`LocalUri`
arms read the archive and normalise paths (external I/O); they are
parameterised by `resolveLinkFn` (for `resolve_link`) and `localUriFn` (for the
path normalisation of the `LocalUri` arm). -/
def resolveLocation (spine : List Nat) (dls : Nat → List Page)
    (resolveLinkFn : String → Option Nat) (localUriFn : Nat → String → String)
    (loc : Location) : Option Nat :=
  match loc with
  | .exact o => resolveLocationExact spine dls o
  | .previous o => resolveLocationPrevious spine dls o
  | .next o => resolveLocationNext spine dls o
  | .uri s => resolveLinkFn s
  | .localUri o s =>
      match vertebraCoordinates spine o with
      | none => none
      | some _ => resolveLinkFn (localUriFn o s)

/-- Text with its bounding rectangle (`document::BoundedText`). -/
structure BoundedText where
  text : String
  rect : Rect
deriving DecidableEq, Repr

/-- `EpubDocument::words` (mod.rs:2277-2299): resolve the location, find the
page, and collect the text commands' text and rectangles. -/
def words (spine : List Nat) (dls : Nat → List Page)
    (resolveLinkFn : String → Option Nat) (localUriFn : Nat → String → String)
    (loc : Location) : Option (List BoundedText × Nat) :=
  if spine = [] then none
  else
    match resolveLocation spine dls resolveLinkFn localUriFn loc with
    | none => none
    | some offset =>
        match vertebraCoordinates spine offset with
        | none => none
        | some (index, _startOffset) =>
            ((dls index).get? (pageIndexPure (dls index) offset)).map (fun page =>
              (page.filterMap (fun dc =>
                match dc with
                | .text _o r t _u => some ⟨t, r⟩
                | _ => none), offset))

/-- `EpubDocument::links` (mod.rs:2305-2328): like `words` but collecting the
`uri`-carrying text and image commands. -/
def links (spine : List Nat) (dls : Nat → List Page)
    (resolveLinkFn : String → Option Nat) (localUriFn : Nat → String → String)
    (loc : Location) : Option (List BoundedText × Nat) :=
  if spine = [] then none
  else
    match resolveLocation spine dls resolveLinkFn localUriFn loc with
    | none => none
    | some offset =>
        match vertebraCoordinates spine offset with
        | none => none
        | some (index, _startOffset) =>
            ((dls index).get? (pageIndexPure (dls index) offset)).map (fun page =>
              (page.filterMap (fun dc =>
                match dc with
                | .text _o r _t (some u) => some ⟨u, r⟩
                | .image _o r (some u) => some ⟨u, r⟩
                | _ => none), offset))

/-- `EpubDocument::images` (mod.rs:331-348): like `words` but collecting the
image commands' rectangles. -/
def images (spine : List Nat) (dls : Nat → List Page)
    (resolveLinkFn : String → Option Nat) (localUriFn : Nat → String → String)
    (loc : Location) : Option (List Rect × Nat) :=
  if spine = [] then none
  else
    match resolveLocation spine dls resolveLinkFn localUriFn loc with
    | none => none
    | some offset =>
        match vertebraCoordinates spine offset with
        | none => none
        | some (index, _startOffset) =>
            ((dls index).get? (pageIndexPure (dls index) offset)).map (fun page =>
              (page.filterMap (fun dc =>
                match dc with
                | .image _o r _u => some r
                | _ => none), offset))

/-- `EpubDocument::pixmap` (mod.rs:2330-2344): resolve, pick the page, and
render it.  Rendering paints through the font and raster services, so it is
parameterised by `renderPage`. -/
def pixmap {Pix : Type} (renderPage : Page → Pix) (spine : List Nat)
    (dls : Nat → List Page) (resolveLinkFn : String → Option Nat)
    (localUriFn : Nat → String → String) (loc : Location) : Option (Pix × Nat) :=
  if spine = [] then none
  else
    match resolveLocation spine dls resolveLinkFn localUriFn loc with
    | none => none
    | some offset =>
        match vertebraCoordinates spine offset with
        | none => none
        | some (index, _startOffset) =>
            ((dls index).get? (pageIndexPure (dls index) offset)).map (fun page =>
              (renderPage page, offset))

/-- Accumulator loop behind `lastCoveringIdx`: walk the list of first offsets
keeping the index of the last one that is at most `o`. -/
def lastCoveringIdxAux : List Nat → Nat → Nat → Nat → Nat
  | [], _, _, acc => acc
  | f :: rest, o, k, acc => lastCoveringIdxAux rest o (k + 1) (if f ≤ o then k else acc)

/-- Specification-side page selector, following claim C1's words: the index of
the last page whose first-command offset is at most `o`, or `0` when `o`
precedes every page's first-command offset. -/
def lastCoveringIdx (firsts : List Nat) (o : Nat) : Nat :=
  lastCoveringIdxAux firsts o 0 0

/-- Largest index of an entry that is at most `o` (proof device used to reason
about `lastCoveringIdx`). -/
def lastQualIdx : List Nat → Nat → Option Nat
  | [], _ => none
  | f :: rest, o =>
      match lastQualIdx rest o with
      | some m => some (m + 1)
      | none => if f ≤ o then some 0 else none

/-- First-command offsets of all pages of a display list.  The default `0` is
never consulted when no page is empty. -/
def firstsList (dl : List Page) : List Nat :=
  dl.map (fun p => (pageFirstOffset p).getD 0)

/-- Well-formedness of a built display list, as documented in the spec: at
least one page, no empty page, and non-decreasing page first-command offsets. -/
def wellFormedDL (dl : List Page) : Prop :=
  dl ≠ [] ∧ (∀ p ∈ dl, p ≠ []) ∧ List.Pairwise (· ≤ ·) (firstsList dl)

instance (dl : List Page) : Decidable (wellFormedDL dl) := by
  unfold wellFormedDL; infer_instance

/-- Mirror of `pageIndexPure` over the bare list of page first offsets (proof
device; `pageIndexPure` coincides with it when no page is empty). -/
def pageIndexFs (fs : List Nat) (offset : Nat) : Nat :=
  if fs.length < 2 ∨ (fs.get? 1).map (fun f => decide (offset < f)) = some true then
    0
  else if (fs.get? (fs.length - 1)).map (fun f => decide (f ≤ offset)) = some true then
    fs.length - 1
  else
    match (List.range' 1 (fs.length - 2)).find? (fun i =>
        ((fs.get? i).map (fun f => decide (f ≤ offset)) == some true) &&
        ((fs.get? (i + 1)).map (fun f => decide (offset < f)) == some true)) with
    | some i => i
    | none => 0

/-- Modelled from the spec: the DOM node of `document/epub/dom.rs`, which is
not under `src/`.  A node is an element (offset, tag name, ordered children), a
text node, or a whitespace node; the attribute map is elided (no claim below
reads it). -/
inductive Node
  | element (offset : Nat) (name : String) (children : List Node)
  | textNode (offset : Nat) (s : String)
  | whitespace (offset : Nat) (s : String)

/-- Byte offset of a node in its chunk (`Node::offset`). -/
def Node.offsetOf : Node → Nat
  | .element o _ _ => o
  | .textNode o _ => o
  | .whitespace o _ => o

mutual

/-- Modelled from the spec: `Node::find` of the absent `dom.rs` — first node
with the given tag name, in document order. -/
def findNode : Node → String → Option Node
  | n@(Node.element _ name children), target =>
      if name = target then some n else findNodeList children target
  | _, _ => none

/-- List counterpart of `findNode`, scanning children in order. -/
def findNodeList : List Node → String → Option Node
  | [], _ => none
  | c :: rest, target =>
      match findNode c target with
      | some n => some n
      | none => findNodeList rest target

end

/-- Post-processing of `EpubDocument::build_display_list` (mod.rs:406-452): if
the chunk's document has no `body` element, the display list stays empty;
otherwise the pages produced by the recursive walk (passed in as `recPages`,
the state of `display_list` after `build_display_list_rec`, which starts from
one empty page) are filtered down to the non-empty ones, and if nothing is
left, a single page holding one `Marker` at the body's offset is emitted. -/
def buildDisplayListPost (root : Node) (startOffset : Nat) (recPages : List Page) :
    List Page :=
  match findNode root "body" with
  | none => []
  | some body =>
      let kept := recPages.filter (fun page => !page.isEmpty)
      if kept.isEmpty then [[DrawCommand.marker (startOffset + body.offsetOf)]]
      else kept

/-- One step of the table-row cell merge loop of `build_display_list_rec`
(mod.rs:749-755): the cell's page `pg` is appended onto display-list slot `i`
when that slot exists (`display_list.get_mut(page_index + i)`), and pushed as
a new page otherwise. -/
def appendCellPage (dl : List Page) (i : Nat) (pg : Page) : List Page :=
  if i < dl.length then dl.set i (dl.getD i [] ++ pg) else dl ++ [pg]

/-- The table-row cell merge loop of `build_display_list_rec` (mod.rs:749-755)
unrolled over the cell's pages: page `j` of the cell is merged into
display-list slot `i + j`. -/
def mergeCellPagesFrom (dl : List Page) (i : Nat) : List Page → List Page
  | [] => dl
  | pg :: rest => mergeCellPagesFrom (appendCellPage dl i pg) (i + 1) rest

/-- Merge of one table cell's pages into the row's display list
(mod.rs:749-755); the call site passes `page_index = display_list.len() - 1`,
captured at mod.rs:722 before any cell of the row is laid out. -/
def mergeCellPages (pageIdx : Nat) (dl : List Page) (child : List Page) :
    List Page :=
  mergeCellPagesFrom dl pageIdx child

/-- Concatenation of all command offsets of a display list, in page order then
command order. -/
def concatOffsets (dl : List Page) : List Nat :=
  dl.join.map DrawCommand.offset

/-- Boolean test that a sequence of offsets is non-decreasing. -/
def nonDecreasingOffs : List Nat → Bool
  | [] => true
  | [_] => true
  | a :: b :: rest => Nat.ble a b && nonDecreasingOffs (b :: rest)

/-- The ordering conjunct of the claimed display-list invariant: the
concatenated offset sequence is non-decreasing. -/
def offsetsNonDecreasing (dl : List Page) : Prop :=
  nonDecreasingOffs (concatOffsets dl) = true

instance (dl : List Page) : Decidable (offsetsNonDecreasing dl) :=
  inferInstanceAs (Decidable (nonDecreasingOffs (concatOffsets dl) = true))

/-- Modelled from the spec: `collapse_margins` of `document/epub/layout.rs`,
which is not under `src/`.  The spec (§4.1) collapses two adjacent vertical
margins to their maximum when both are non-negative, their minimum when both
are non-positive, and their sum otherwise. -/
def collapse_margins (a b : Int) : Int :=
  if 0 ≤ a ∧ 0 ≤ b then max a b
  else if a ≤ 0 ∧ b ≤ 0 then min a b
  else a + b

/-- Top-margin resolution of `build_display_list_rec` (mod.rs:596-609): the
parsed top margin is collapsed with the previous in-flow sibling's bottom
margin, and additionally with the parent's top margin when the node is the
first in-flow child. -/
def resolveTopMargin (siblingBottom parentTop top : Int) (isFirst : Bool) : Int :=
  let collapsed := collapse_margins siblingBottom top
  if isFirst then collapse_margins parentTop collapsed else collapsed

/-- Bottom-margin update at the last in-flow child (mod.rs:797-800, likewise
mod.rs:774-776 for table rows): the parent's bottom margin is collapsed with
the last child's bottom margin. -/
def resolveBottomMargin (lastChildBottom bottom : Int) : Int :=
  collapse_margins lastChildBottom bottom

/-- Empty-block collapse step (mod.rs:851-855) including its guard: only when
the per-invocation rectangle vector `rects` is empty does the bottom margin
become the collapse of bottom and top margins with the top margin zeroed;
otherwise both margins are left alone.  Result is `(top, bottom)`. -/
def collapseEmptyBlock (rectsLen : Nat) (top bottom : Int) : Int × Int :=
  if rectsLen = 0 then (0, collapse_margins bottom top) else (top, bottom)

/-- Operations `build_display_list_rec` performs on its per-invocation `rects`
vector after initialising it to the one-element vector `[None]`
(mod.rs:502-503).  `mergeChildTable k` is the table-branch merge of a child
artifact's `k` rectangles (mod.rs:757-769): entries `0..k` are updated in
place where they exist and pushed otherwise.  `mergeChildBlock k` is the
block-branch merge (mod.rs:802-815): entries `last_index..last_index+k` with
`last_index = rects.len() - 1` are updated in place where they exist and
pushed otherwise.  `placeParas k` is a `place_paragraphs` call
(mod.rs:1317-1747), which has no early return: one entry is popped
(mod.rs:1347), the final page rectangle is always pushed back (mod.rs:1743),
and `k` further entries are pushed at page breaks (mod.rs:1349 and 1729). -/
inductive RectsOp
  | mergeChildTable (k : Nat)
  | mergeChildBlock (k : Nat)
  | placeParas (k : Nat)

/-- Effect of one `rects` operation on the vector's length. -/
def applyRectsOp (len : Nat) : RectsOp → Nat
  | .mergeChildTable k => max len k
  | .mergeChildBlock k => max len (len - 1 + k)
  | .placeParas k => len - 1 + (1 + k)

/-- Length of the `rects` vector after a sequence of operations, starting
from the one-element vector `[None]` pushed at mod.rs:502-503. -/
def rectsLenAfter (ops : List RectsOp) : Nat :=
  ops.foldl applyRectsOp 1

/-- Rust `f32::round` (round half away from zero) on the exact rational model. -/
def roundAway (q : ℚ) : Int :=
  if 0 ≤ q then Int.floor (q + 1/2) else -Int.floor (1/2 - q)

/-- Rust `as i32` on a float value: truncation toward zero. -/
def truncQ (q : ℚ) : Int :=
  if 0 ≤ q then Int.floor q else -Int.floor (-q)

/-- Table column-width distribution of `build_display_list_rec`
(mod.rs:683-705), following the HTML3 algorithm: when the summed min-widths
reach the band width, scale the min-widths proportionally; when the summed
max-widths fit, take the max-widths; otherwise interpolate by the growth
factor `(width - Σmin) / (Σmax - Σmin)`. -/
def computeColumnWidths (minWidths maxWidths : List Int) (width : Int) : List Int :=
  let minRowWidth := minWidths.sum
  let maxRowWidth := maxWidths.sum
  if width ≤ minRowWidth then
    minWidths.map (fun (w : Int) => roundAway (((w : ℚ) / (minRowWidth : ℚ)) * (width : ℚ)))
  else if maxRowWidth ≤ width then
    maxWidths
  else
    let dw : ℚ := ((width - minRowWidth : Int) : ℚ)
    let dr : ℚ := ((maxRowWidth - minRowWidth : Int) : ℚ)
    let gf := dw / dr
    (minWidths.zip maxWidths).map (fun ab => ab.1 + roundAway (((ab.2 - ab.1 : Int) : ℚ) * gf))

/-- Text alignment (`layout::TextAlign`; `layout.rs` is not under `src/`, the
four values are those of the spec's resolved-style record). -/
inductive TextAlign
  | justify
  | left
  | right
  | center
deriving DecidableEq, Repr

/-- A shaped glyph plan; only its advance width is ever read by the embedded
code (the glyph-level data belongs to the external font service). -/
structure Plan where
  width : Int
deriving DecidableEq, Repr

/-- `layout::TextElement` restricted to the fields the paragraph-breaking code
below reads: content offset, text, and shaped plan.  The text is modelled as a
list of characters so that the byte-index arithmetic of `insert_breaks` becomes
character-index arithmetic; font selection fields are folded into the font
service parameters. -/
structure TextElement where
  offset : Nat
  text : List Char
  plan : Plan
deriving DecidableEq, Repr

/-- Side of a floated element (`layout::Float`). -/
inductive FloatSide
  | left
  | right
deriving DecidableEq, Repr

/-- `layout::ImageElement` restricted to the fields read below (offset,
dimensions, scale, margins, float side, uri); path, display and vertical-align
are rendering-only here and elided. -/
structure ImageElement where
  offset : Nat
  width : Int
  height : Int
  scale : ℚ
  margin : Edge
  float : Option FloatSide
  uri : Option String
deriving DecidableEq, Repr

/-- `layout::ParagraphElement`: payload of a paragraph box. -/
inductive ParagraphElement
  | textElem (e : TextElement)
  | imageElem (e : ImageElement)
  | nothing
deriving DecidableEq, Repr

/-- `paragraph_breaker::Item`: Knuth-Plass box / glue / penalty. -/
inductive ParagraphItem
  | box (width : Int) (data : ParagraphElement)
  | glue (width stretch shrink : Int)
  | penalty (width : Int) (value : Int) (flagged : Bool)
deriving DecidableEq, Repr

/-- `paragraph_breaker::Breakpoint`; the `ratio` field only drives glue widths
during line emission and is elided. -/
structure Breakpoint where
  index : Nat
  width : Int
deriving DecidableEq, Repr

/-- `HYPHEN_PENALTY` (mod.rs:45). -/
def HYPHEN_PENALTY : Int := 50

/-- `STRETCH_TOLERANCE` (mod.rs:46). -/
def STRETCH_TOLERANCE : ℚ := 126 / 100

/-- External services consumed by the paragraph-breaking driver: the
`paragraph_breaker` crate's two fitting algorithms, the font service (shaping,
hyphen width, plan cropping), the `xi_unicode` line-break iterator, the
`hyphenation` dictionaries, and the Unicode `char::is_alphabetic` test. -/
structure BreakEnv where
  totalFit : List ParagraphItem → List Int → ℚ → Nat → List Breakpoint
  standardFit : List ParagraphItem → List Int → ℚ → List Breakpoint
  planFor : TextElement → List Char → Plan
  hyphenWidthFor : TextElement → Int
  lineBreakPoints : List Char → List (Nat × Bool)
  hyphenSegments : String → List Char → List (List Char)
  cropPlan : Plan → Int → Plan
  hyphLangFor : String → Option String
  hyphPatterns : String → Bool
  defaultHyphLang : String
  isAlphabetic : Char → Bool

/-- Stretch tolerance chosen by `place_paragraphs` (mod.rs:1326-1330):
`STRETCH_TOLERANCE` for justified paragraphs, `10.0` otherwise. -/
def stretchTolerance (ta : TextAlign) : ℚ :=
  if ta = TextAlign.justify then STRETCH_TOLERANCE else 10

/-- Dictionary selection of `place_paragraphs` (mod.rs:1449-1454): a
hyphenation dictionary is looked up only when the alignment is `Justify`, via
`hyph_lang` on the paragraph language (or the default) and the patterns map. -/
def dictFor (env : BreakEnv) (ta : TextAlign) (language : Option String) : Option String :=
  if ta = TextAlign.justify then
    (env.hyphLangFor (language.getD env.defaultHyphLang)).bind
      (fun lang => if env.hyphPatterns lang then some lang else none)
  else none

/-- `EpubDocument::box_from_chunk` (mod.rs:1750-1780): shape a chunk of an
existing text element into a fresh box at offset `element.offset + idx`. -/
def boxFromChunk (env : BreakEnv) (element : TextElement) (chunk : List Char) (idx : Nat) :
    ParagraphItem :=
  let plan := env.planFor element chunk
  ParagraphItem.box plan.width
    (ParagraphElement.textElem { offset := element.offset + idx, text := chunk, plan := plan })

/-- Helper for the slice searches of `insert_breaks`: position of the first
character from `start` on satisfying `p` (Rust `chunk[start..].find(p).map(|i|
start + i)`). -/
def findFrom (p : Char → Bool) (cs : List Char) (start : Nat) : Option Nat :=
  ((cs.drop start).findIdx? p).map (fun i => start + i)

/-- One iteration of the segment loop of `insert_breaks` (mod.rs:1818-1828):
push the boxed segment, advance the intra-run index, and, when more of the run
remains, push a flagged penalty of the rendered hyphen's width and value
`HYPHEN_PENALTY`. -/
def pushSegStep (env : BreakEnv) (element : TextElement) (hyphenWidth : Int)
    (subchunkLen : Nat) (base : Nat) (st : List ParagraphItem × Nat)
    (seg : List Char) : List ParagraphItem × Nat :=
  let acc1 := st.1 ++ [boxFromChunk env element seg (base + st.2)]
  let idx := st.2 + seg.length
  let acc2 :=
    if idx < subchunkLen then
      acc1 ++ [ParagraphItem.penalty hyphenWidth HYPHEN_PENALTY true]
    else acc1
  (acc2, idx)

/-- Inner segment loop of `insert_breaks` (mod.rs:1815-1828): push one box per
dictionary segment of the alphabetic run, interleaving flagged penalties of the
rendered hyphen's width and value `HYPHEN_PENALTY` between segments.  Returns
the grown item list and the final intra-run index. -/
def pushSegments (env : BreakEnv) (element : TextElement) (dict : String)
    (hyphenWidth : Int) (subchunk : List Char) (base : Nat)
    (acc : List ParagraphItem) : List ParagraphItem × Nat :=
  (env.hyphenSegments dict subchunk).foldl
    (pushSegStep env element hyphenWidth subchunk.length base) (acc, 0)

/-- While loop of `insert_breaks` over the alternating alphabetic /
non-alphabetic runs of one line-break chunk (mod.rs:1814-1846).  The source's
`index_before` strictly increases each iteration and is bounded by the chunk
length, so the fuel `chunk.length + 1` supplied by the caller never runs
out. -/
def hyphLoop (env : BreakEnv) (element : TextElement) (hyphenWidth : Int)
    (dict : String) (chunk : List Char) (startIndex : Nat) :
    Nat → Nat → Nat → List ParagraphItem × List (Nat × Nat) →
    List ParagraphItem × List (Nat × Nat)
  | 0, _, _, st => st
  | fuel + 1, indexBefore, indexAfter, (acc, hidx) =>
      if indexBefore < indexAfter then
        let subchunk := (chunk.take indexAfter).drop indexBefore
        let lenBefore := acc.length
        let acc1 := (pushSegments env element dict hyphenWidth subchunk
                       (startIndex + indexBefore) acc).1
        let lenAfter := acc1.length
        let hidx1 := if 1 + lenBefore < lenAfter then hidx ++ [(lenBefore, lenAfter)] else hidx
        let indexBefore1 := (findFrom env.isAlphabetic chunk indexAfter).getD chunk.length
        let acc2 :=
          if indexAfter < indexBefore1 then
            acc1 ++ [boxFromChunk env element ((chunk.take indexBefore1).drop indexAfter)
                       (startIndex + indexAfter)]
          else acc1
        let indexAfter1 :=
          (findFrom (fun c => !env.isAlphabetic c) chunk indexBefore1).getD chunk.length
        hyphLoop env element hyphenWidth dict chunk startIndex fuel indexBefore1 indexAfter1
          (acc2, hidx1)
      else (acc, hidx)

/-- Dictionary pass over one line-break chunk inside `insert_breaks`
(mod.rs:1800-1850): with a dictionary, push the non-alphabetic prefix and run
the alphabetic-run loop; without one, re-box the chunk whole. -/
def chunkDictPass (env : BreakEnv) (dict : Option String) (element : TextElement)
    (hyphenWidth : Int) (chunk : List Char) (startIndex : Nat)
    (st : List ParagraphItem × List (Nat × Nat)) :
    List ParagraphItem × List (Nat × Nat) :=
  match dict with
  | some d =>
      let indexBefore := (findFrom env.isAlphabetic chunk 0).getD chunk.length
      let acc1 :=
        if 0 < indexBefore then
          st.1 ++ [boxFromChunk env element (chunk.take indexBefore) startIndex]
        else st.1
      let indexAfter :=
        (findFrom (fun c => !env.isAlphabetic c) chunk indexBefore).getD chunk.length
      hyphLoop env element hyphenWidth d chunk startIndex (chunk.length + 1)
        indexBefore indexAfter (acc1, st.2)
  | none => (st.1 ++ [boxFromChunk env element chunk startIndex], st.2)

/-- Processing of one line-break chunk (mod.rs:1798-1856): the dictionary pass
followed, after a non-hard break, by a width-0 penalty (value `HYPHEN_PENALTY`
and flagged when the chunk already ends in a hyphen, else value 0
unflagged). -/
def processOneChunk (env : BreakEnv) (dict : Option String) (element : TextElement)
    (hyphenWidth : Int) (chunk : List Char) (startIndex : Nat) (isHard : Bool)
    (st : List ParagraphItem × List (Nat × Nat)) :
    List ParagraphItem × List (Nat × Nat) :=
  let st1 := chunkDictPass env dict element hyphenWidth chunk startIndex st
  if !isHard then
    let pen := if chunk.getLast? = some '-' then HYPHEN_PENALTY else 0
    (st1.1 ++ [ParagraphItem.penalty 0 pen (decide (0 < pen))], st1.2)
  else st1

/-- Per-chunk loop of one text box inside `insert_breaks` (mod.rs:1798-1857):
walk the Unicode line-break chunks of the element's text, processing each in
turn while advancing `start_index`. -/
def processChunks (env : BreakEnv) (dict : Option String) (element : TextElement)
    (hyphenWidth : Int) :
    List (Nat × Bool) → Nat → List ParagraphItem × List (Nat × Nat) →
    List ParagraphItem × List (Nat × Nat)
  | [], _, st => st
  | (endIndex, isHard) :: rest, startIndex, st =>
      processChunks env dict element hyphenWidth rest endIndex
        (processOneChunk env dict element hyphenWidth
          ((element.text.take endIndex).drop startIndex) startIndex isHard st)

/-- Per-item dispatch of `insert_breaks` (mod.rs:1785-1861): a text box is
re-split through `processChunks` (with the rendered hyphen width of its font
when a dictionary is present, mod.rs:1790-1797); every other item passes
through unchanged. -/
def insertBreaksStep (env : BreakEnv) (dict : Option String)
    (st : List ParagraphItem × List (Nat × Nat)) (itm : ParagraphItem) :
    List ParagraphItem × List (Nat × Nat) :=
  match itm with
  | ParagraphItem.box _w (ParagraphElement.textElem element) =>
      let hyphenWidth := if dict.isSome then env.hyphenWidthFor element else 0
      processChunks env dict element hyphenWidth (env.lineBreakPoints element.text) 0 st
  | _ => (st.1 ++ [itm], st.2)

/-- `EpubDocument::insert_breaks` (mod.rs:1782-1865): rebuild the item list,
splitting every text box at the Unicode line-break opportunities and optional
hyphenation points; all other items pass through unchanged.  Returns the new
items together with the recorded hyphenation index ranges. -/
def insertBreaks (env : BreakEnv) (dict : Option String)
    (items : List ParagraphItem) : List ParagraphItem × List (Nat × Nat) :=
  items.foldl (insertBreaksStep env dict) ([], [])

/-- Oversized-box cropping of `place_paragraphs` (mod.rs:1465-1490): every box
wider than `maxWidth` is narrowed — a text box by cropping its glyph plan, an
image box by scaling down to exactly `maxWidth`. -/
def cropOversized (env : BreakEnv) (maxWidth : Int) (items : List ParagraphItem) :
    List ParagraphItem :=
  items.map (fun itm =>
    match itm with
    | ParagraphItem.box w (ParagraphElement.textElem e) =>
        if maxWidth < w then
          let plan := env.cropPlan e.plan maxWidth
          ParagraphItem.box plan.width (ParagraphElement.textElem { e with plan := plan })
        else itm
    | ParagraphItem.box w (ParagraphElement.imageElem e) =>
        if maxWidth < w then
          let fac : ℚ := (maxWidth : ℚ) / (e.width : ℚ)
          ParagraphItem.box maxWidth (ParagraphElement.imageElem
            { e with scale := e.scale * fac,
                     width := maxWidth,
                     height := truncQ ((e.height : ℚ) * fac) })
        else itm
    | _ => itm)

/-- Outcome of the breakpoint search: the chosen breakpoints, the (possibly
rewritten) item list, and the recorded hyphenation ranges. -/
structure BreakOutcome where
  bps : List Breakpoint
  items : List ParagraphItem
  hyphIndices : List (Nat × Nat)
deriving DecidableEq

/-- Fallback chain of `place_paragraphs` (mod.rs:1443-1493): optimal fit at the
alignment's stretch tolerance; on failure insert optional breaks (dictionary
hyphenation only for `Justify`) and retry optimal fit; then first fit at the
same tolerance; finally crop oversized boxes to the smaller of the first two
line widths and retry first fit at `STRETCH_TOLERANCE`. -/
def breakParagraph (env : BreakEnv) (ta : TextAlign) (language : Option String)
    (items : List ParagraphItem) (lineLengths : List Int) : BreakOutcome :=
  let tol := stretchTolerance ta
  let bps := env.totalFit items lineLengths tol 0
  let afterHyph :=
    if bps.isEmpty then
      let dict := dictFor env ta language
      let ih := insertBreaks env dict items
      { bps := env.totalFit ih.1 lineLengths tol 0, items := ih.1, hyphIndices := ih.2 :
        BreakOutcome }
    else { bps := bps, items := items, hyphIndices := [] }
  let afterStd :=
    if afterHyph.bps.isEmpty then
      { afterHyph with bps := env.standardFit afterHyph.items lineLengths tol }
    else afterHyph
  if afterStd.bps.isEmpty then
    let maxWidth := min (lineLengths.getD 0 0) (lineLengths.getD 1 0)
    let items2 := cropOversized env maxWidth afterStd.items
    { afterStd with bps := env.standardFit items2 lineLengths STRETCH_TOLERANCE,
                    items := items2 }
  else afterStd

/-- Geometry context of the float-placement loop of `place_paragraphs`
(mod.rs:1344-1414): the line band, the vertical cursor and reserves, the page
content rectangle's bottom, the chunk's global start offset, and `pageIdx`,
which the source computes as `display_list.len()` right after the possible
page overflow at paragraph start (mod.rs:1356) — the display-list index of the
page at which the paragraph starts. -/
structure FloatContext where
  lineWidth : Int
  startX : Int
  endX : Int
  positionY : Int
  spaceTop : Int
  spaceBottom : Int
  rectMaxY : Int
  startOffset : Nat
  pageIdx : Nat

/-- Mutable state touched by the float-placement loop: the current page's
command list and the per-page float rectangles map (`draw_state.floats`). -/
structure FloatState where
  page : List DrawCommand
  floats : Nat → List Rect

/-- Width clamp of the float loop (mod.rs:1364-1370): when the width including
horizontal margins exceeds `maxWidth`, scale the element down so the width
becomes exactly `maxWidth` minus the margins; result is
`(width, height, scale)`. -/
def floatClampWidth (maxWidth horizMargin width height : Int) (scale : ℚ) :
    Int × Int × ℚ :=
  if maxWidth < width + horizMargin then
    let fac : ℚ := ((maxWidth - horizMargin : Int) : ℚ) / (width : ℚ)
    (maxWidth - horizMargin, roundAway (fac * (height : ℚ)), scale * fac)
  else (width, height, scale)

/-- Top-edge computation of the float loop (mod.rs:1372-1381): start at the
line's top and drop below the lowest earlier float on the same side that still
overlaps vertically. -/
def floatYMin (ctx : FloatContext) (st : FloatState) (element : ImageElement) : Int :=
  let yMin0 := ctx.positionY - ctx.spaceTop
  let side : Int := if element.float = some FloatSide.left then 0 else 1
  match (st.floats ctx.pageIdx).reverse.find? (fun orect =>
      decide (yMin0 < orect.maxY) && (Int.sign (orect.minX - ctx.startX) == side)) with
  | some orect => orect.maxY
  | none => yMin0

/-- Height clamp of the float loop (mod.rs:1383-1389): when the height
including vertical margins exceeds `maxHeight`, scale the element down so the
height becomes exactly `maxHeight` minus the margins. -/
def floatClampHeight (maxHeight vertMargin width height : Int) (scale : ℚ) :
    Int × Int × ℚ :=
  if maxHeight < height + vertMargin then
    let fac : ℚ := ((maxHeight - vertMargin : Int) : ℚ) / (height : ℚ)
    (roundAway (fac * (width : ℚ)), maxHeight - vertMargin, scale * fac)
  else (width, height, scale)

/-- Body of the float-placement loop (mod.rs:1358-1414) for one float element:
clamp the width (margins included) to a third of the line width, drop the top
edge below an existing same-side float, clamp the height (margins included) to
two thirds of the remaining vertical space below the top edge, and, when both
dimensions stay positive, record the rectangle in the float list keyed by
`ctx.pageIdx` and push the image command (shrunk by the margins). -/
def placeFloat (ctx : FloatContext) (st : FloatState) (element : ImageElement) :
    FloatState :=
  let horizMargin := element.margin.left + element.margin.right
  let vertMargin := element.margin.top + element.margin.bottom
  let maxWidth := Int.tdiv ctx.lineWidth 3
  let clamped1 := floatClampWidth maxWidth horizMargin element.width element.height element.scale
  let yMin := floatYMin ctx st element
  let maxHeight := Int.tdiv (2 * (ctx.rectMaxY - ctx.spaceBottom - yMin)) 3
  let clamped2 := floatClampHeight maxHeight vertMargin clamped1.1 clamped1.2.1 clamped1.2.2
  let width2 := clamped2.1
  let height2 := clamped2.2.1
  if 0 < width2 ∧ 0 < height2 then
    let rect : Rect :=
      if element.float = some FloatSide.left then
        ⟨ctx.startX, yMin, ctx.startX + width2 + horizMargin, yMin + height2 + vertMargin⟩
      else
        ⟨ctx.endX - width2 - horizMargin, yMin, ctx.endX, yMin + height2 + vertMargin⟩
    let shrunk := shrinkRect rect element.margin
    { page := st.page ++ [DrawCommand.image (element.offset + ctx.startOffset) shrunk element.uri],
      floats := fun k => if k = ctx.pageIdx then st.floats k ++ [rect] else st.floats k }
  else st

/-- The whole float-placement loop (`for mut element in floats.into_iter()`,
mod.rs:1358-1414). -/
def placeFloats (ctx : FloatContext) (st : FloatState) (elements : List ImageElement) :
    FloatState :=
  elements.foldl (placeFloat ctx) st

/-- State of `EpubDocument` relevant to the setter claims: the spine sizes, the
per-spine display-list cache, the font presence flag, and the layout knobs.
The zip archive, the parsed package document and the font data are external
resources and are not part of the modelled state. -/
structure EpubDoc where
  spine : List Nat
  cache : List (Nat × List Page)
  fontsLoaded : Bool
  ignoreDocumentCss : Bool
  margin : Edge
  fontSize : ℚ
  textAlign : TextAlign
  lineHeight : ℚ
  dims : Nat × Nat
  dpi : Nat

/-- `EpubDocument::set_margin` (mod.rs:203-206): store the margin and clear the
cache. -/
def set_margin (doc : EpubDoc) (margin : Edge) : EpubDoc :=
  { doc with margin := margin, cache := [] }

/-- `EpubDocument::set_font_size` (mod.rs:208-211): store the size and clear
the cache. -/
def set_font_size (doc : EpubDoc) (fontSize : ℚ) : EpubDoc :=
  { doc with fontSize := fontSize, cache := [] }

/-- `EpubDocument::set_ignore_document_css` (mod.rs:213-218): only when the
value actually changes, store it and clear the cache. -/
def set_ignore_document_css (doc : EpubDoc) (value : Bool) : EpubDoc :=
  if doc.ignoreDocumentCss ≠ value then
    { doc with ignoreDocumentCss := value, cache := [] }
  else doc

/-- `Document::layout` for `EpubDocument` (mod.rs:2346-2352): store dimensions,
DPI and font size, and clear the cache. -/
def layout (doc : EpubDoc) (width height : Nat) (fontSize : ℚ) (dpi : Nat) : EpubDoc :=
  { doc with dims := (width, height), dpi := dpi, fontSize := fontSize, cache := [] }

/-- `Document::set_text_align` for `EpubDocument` (mod.rs:2354-2357). -/
def set_text_align (doc : EpubDoc) (textAlign : TextAlign) : EpubDoc :=
  { doc with textAlign := textAlign, cache := [] }

/-- `Document::set_font_family` for `EpubDocument` (mod.rs:2359-2369):
`loadResult` stands for `FontFamily::from_name` (filesystem access) and
`defaultFontsOk` for `default_fonts().ok().is_some()`.  Only when the named
family loads and fonts are available is the serif family swapped and the cache
cleared. -/
def set_font_family (doc : EpubDoc) (loadResult : Option Unit) (defaultFontsOk : Bool) :
    EpubDoc :=
  match loadResult with
  | none => doc
  | some _ =>
      let fontsLoaded := doc.fontsLoaded || defaultFontsOk
      if fontsLoaded then { doc with fontsLoaded := true, cache := [] }
      else { doc with fontsLoaded := fontsLoaded }

/-- `Document::set_margin_width` for `EpubDocument` (mod.rs:2371-2376): only
for widths within `0..=10` millimetres is the margin updated (via the external
`mm_to_px`, passed in as `mmToPx`) and the cache cleared. -/
def set_margin_width (mmToPx : Int → Nat → ℚ) (doc : EpubDoc) (width : Int) : EpubDoc :=
  if 0 ≤ width ∧ width ≤ 10 then
    { doc with margin := Edge.uniform (roundAway (mmToPx width doc.dpi)), cache := [] }
  else doc

/-- `Document::set_line_height` for `EpubDocument` (mod.rs:2378-2381). -/
def set_line_height (doc : EpubDoc) (lineHeight : ℚ) : EpubDoc :=
  { doc with lineHeight := lineHeight, cache := [] }

/-- Sample document state with a populated cache, used by concrete witnesses
and counterexamples. -/
def sampleDoc : EpubDoc :=
  { spine := [1000, 2000], cache := [(0, [[DrawCommand.marker 0]])], fontsLoaded := true,
    ignoreDocumentCss := false, margin := Edge.uniform 30, fontSize := 11,
    textAlign := TextAlign.justify, lineHeight := 12 / 10, dims := (1404, 1872), dpi := 300 }

/-- Sample chunk document with a `body` element at offset 20. -/
def bodyRoot : Node :=
  Node.element 0 "html" [Node.element 6 "head" [], Node.element 20 "body" []]

/-- Sample chunk document without a `body` element. -/
def noBodyRoot : Node :=
  Node.element 0 "html" [Node.element 6 "head" []]

/-- Sample display-list map: three one-command pages with first offsets 0, 4, 8
(non-decreasing, no empty page). -/
def dlsSample : Nat → List Page :=
  fun _ => [[DrawCommand.marker 0], [DrawCommand.marker 4], [DrawCommand.marker 8]]

/-- Sample display-list map with strictly increasing page first offsets 0, 3, 7. -/
def dlsStrict : Nat → List Page :=
  fun _ => [[DrawCommand.marker 0], [DrawCommand.marker 3], [DrawCommand.marker 7]]

/-- Sample display-list map whose consecutive pages share the first offset 5;
it satisfies the documented display-list invariant (non-decreasing first
offsets, no empty page). -/
def dlsDup : Nat → List Page :=
  fun _ => [[DrawCommand.marker 0], [DrawCommand.marker 5], [DrawCommand.marker 5],
            [DrawCommand.marker 9]]

/-- Sample float-placement context: line band 100..400 (width 300 in use would
be 300, here 30 for a tight clamp), cursor at the top of a 100-pixel page,
paragraph starting at display-list page 3. -/
def ctxW : FloatContext :=
  { lineWidth := 30, startX := 100, endX := 400, positionY := 10, spaceTop := 10,
    spaceBottom := 0, rectMaxY := 100, startOffset := 0, pageIdx := 3 }

/-- Empty float-placement state. -/
def stEmpty : FloatState :=
  { page := [], floats := fun _ => [] }

/-- Sample left-floated 5-by-5 image with no margins. -/
def elemW : ImageElement :=
  { offset := 7, width := 5, height := 5, scale := 1, margin := ⟨0, 0, 0, 0⟩,
    float := some FloatSide.left, uri := none }

/-- Sample breakpoint. -/
def bp0 : Breakpoint := ⟨0, 0⟩

/-- Break environment whose optimal-fit breaker succeeds exactly when it is
invoked at stretch tolerance 10 — it distinguishes which tolerance the
fallback chain passes in. -/
def spyEnv : BreakEnv :=
  { totalFit := fun _ _ tol _ => if tol = (10 : ℚ) then [bp0] else [],
    standardFit := fun _ _ _ => [],
    planFor := fun _ _ => ⟨0⟩,
    hyphenWidthFor := fun _ => 0,
    lineBreakPoints := fun _ => [],
    hyphenSegments := fun _ _ => [],
    cropPlan := fun plan _ => plan,
    hyphLangFor := fun _ => none,
    hyphPatterns := fun _ => false,
    defaultHyphLang := "en",
    isAlphabetic := fun _ => false }

/-- Break environment whose optimal-fit breaker always succeeds. -/
def okEnv : BreakEnv :=
  { totalFit := fun _ _ _ _ => [bp0],
    standardFit := fun _ _ _ => [],
    planFor := fun _ _ => ⟨0⟩,
    hyphenWidthFor := fun _ => 0,
    lineBreakPoints := fun _ => [],
    hyphenSegments := fun _ _ => [],
    cropPlan := fun plan _ => plan,
    hyphLangFor := fun _ => none,
    hyphPatterns := fun _ => false,
    defaultHyphLang := "en",
    isAlphabetic := fun _ => false }

/-- C9: for every width outside `0..=10`, `set_margin_width` is a complete
no-op — the returned document equals the old one in every field, cache and
margin included. -/
theorem C9_set_margin_width_noop (mmToPx : Int → Nat → ℚ) (doc : EpubDoc) (width : Int)
    (h : ¬ (0 ≤ width ∧ width ≤ 10)) :
    set_margin_width mmToPx doc width = doc := by
  unfold set_margin_width
  simp [h]

/-- Witness for C9 at the concrete out-of-range width 11. -/
theorem C9_witness :
    set_margin_width (fun _ _ => 0) sampleDoc 11 = sampleDoc :=
  C9_set_margin_width_noop (fun _ _ => 0) sampleDoc 11 (by decide)

/-- C8 (amended): `layout`, `set_text_align`, `set_line_height`,
`set_font_size` and `set_margin` always leave the display-list cache empty;
`set_margin_width` does so exactly for widths in `0..=10` and is a no-op
otherwise; `set_ignore_document_css` does so exactly when the value changes and
is a no-op otherwise; `set_font_family` is a no-op when the family fails to
load, and clears the cache when the family loads and fonts are available. -/
theorem C8_setters_clear_cache (doc : EpubDoc) (w h : Nat) (fs : ℚ) (dpi : Nat)
    (ta : TextAlign) (lh : ℚ) (e : Edge) (mw : Int) (v : Bool) (ok : Bool)
    (mmToPx : Int → Nat → ℚ) :
    (layout doc w h fs dpi).cache = [] ∧
    (set_text_align doc ta).cache = [] ∧
    (set_line_height doc lh).cache = [] ∧
    (set_font_size doc fs).cache = [] ∧
    (set_margin doc e).cache = [] ∧
    (0 ≤ mw → mw ≤ 10 → (set_margin_width mmToPx doc mw).cache = []) ∧
    (¬ (0 ≤ mw ∧ mw ≤ 10) → set_margin_width mmToPx doc mw = doc) ∧
    (doc.ignoreDocumentCss ≠ v → (set_ignore_document_css doc v).cache = []) ∧
    (doc.ignoreDocumentCss = v → set_ignore_document_css doc v = doc) ∧
    set_font_family doc none ok = doc ∧
    ((doc.fontsLoaded || ok) = true → (set_font_family doc (some ()) ok).cache = []) := by
  refine ⟨rfl, rfl, rfl, rfl, rfl, ?_, ?_, ?_, ?_, rfl, ?_⟩
  · intro h1 h2
    unfold set_margin_width
    simp [h1, h2]
  · intro h1
    unfold set_margin_width
    simp [h1]
  · intro h1
    unfold set_ignore_document_css
    simp [h1]
  · intro h1
    unfold set_ignore_document_css
    simp [h1]
  · intro h1
    unfold set_font_family
    simp [h1]

/-- Witness for C8 exercising the unconditional setters and the conditional
branches of `set_margin_width` and `set_ignore_document_css` at concrete
inputs. -/
theorem C8_witness :
    (layout sampleDoc 600 800 9 212).cache = [] ∧
    (set_margin_width (fun _ _ => 0) sampleDoc 5).cache = [] ∧
    (set_ignore_document_css sampleDoc true).cache = [] :=
  ⟨(C8_setters_clear_cache sampleDoc 600 800 9 212 TextAlign.left 1 (Edge.uniform 2) 5 true
      true (fun _ _ => 0)).1,
   (C8_setters_clear_cache sampleDoc 600 800 9 212 TextAlign.left 1 (Edge.uniform 2) 5 true
      true (fun _ _ => 0)).2.2.2.2.2.1 (by decide) (by decide),
   (C8_setters_clear_cache sampleDoc 600 800 9 212 TextAlign.left 1 (Edge.uniform 2) 5 true
      true (fun _ _ => 0)).2.2.2.2.2.2.2.1 (by decide)⟩

/-- Counterexample for C8 as stated: calling the listed setter
`set_ignore_document_css` with the value the document already holds leaves the
display-list cache untouched and non-empty, so not every call to a listed
setter empties the cache. -/
theorem C8_counterexample :
    (set_ignore_document_css sampleDoc false).cache ≠ [] := by
  decide

/-- The margin-collapsing formula and its live call sites: `collapse_margins`
combines two adjacent margins into their maximum when both are non-negative,
their minimum when both are non-positive, and their sum when the signs
differ; the combination is applied between a previous sibling's bottom margin
and the current top margin (mod.rs:604), between the parent top margin and a
first child's top margin (mod.rs:607-609), and between a last child's bottom
margin and the parent bottom margin (mod.rs:775, 799). -/
theorem collapse_margins_call_sites (b t pt : Int) :
    (0 ≤ b → 0 ≤ t → collapse_margins b t = max b t) ∧
    (b ≤ 0 → t ≤ 0 → collapse_margins b t = min b t) ∧
    (b < 0 → 0 < t → collapse_margins b t = b + t) ∧
    (0 < b → t < 0 → collapse_margins b t = b + t) ∧
    resolveTopMargin b pt t false = collapse_margins b t ∧
    resolveTopMargin b pt t true = collapse_margins pt (collapse_margins b t) ∧
    resolveBottomMargin b t = collapse_margins b t := by
  refine ⟨?_, ?_, ?_, ?_, rfl, rfl, rfl⟩ <;>
    · intro h1 h2
      unfold collapse_margins
      split_ifs <;> omega

/-- One `rects` operation keeps the vector nonempty. -/
theorem one_le_applyRectsOp (len : Nat) (op : RectsOp) (h : 1 ≤ len) :
    1 ≤ applyRectsOp len op := by
  cases op <;> simp only [applyRectsOp] <;> omega

/-- The `rects` vector is nonempty after any sequence of operations. -/
theorem one_le_foldl_applyRectsOp (ops : List RectsOp) :
    ∀ len, 1 ≤ len → 1 ≤ ops.foldl applyRectsOp len := by
  induction ops with
  | nil => intro len h; exact h
  | cons op rest ih =>
      intro len h
      exact ih _ (one_le_applyRectsOp len op h)

/-- C4 (code bug): the `rects` vector of `build_display_list_rec` starts as
the one-element vector `[None]` (mod.rs:502-503) and no sequence of the
operations the function performs on it ever leaves it empty, so the guard
`rects.is_empty()` of the empty-block collapse (mod.rs:852) never holds and
the collapse step returns every block's top and bottom margins unchanged —
even though, were the guard ever to hold, the branch body would combine them
with `collapse_margins` exactly as the claim describes. -/
theorem C4_empty_block_collapse_dead (ops : List RectsOp) (t b : Int) :
    1 ≤ rectsLenAfter ops ∧
    collapseEmptyBlock (rectsLenAfter ops) t b = (t, b) ∧
    collapseEmptyBlock 0 t b = (0, collapse_margins b t) := by
  have h : 1 ≤ rectsLenAfter ops := one_le_foldl_applyRectsOp ops 1 (le_refl 1)
  refine ⟨h, ?_, rfl⟩
  unfold collapseEmptyBlock
  rw [if_neg (by omega)]

/-- Merging a cell page at an existing display-list slot appends it to that
slot's page in place. -/
theorem appendCellPage_at (D : List Page) (x pg : Page) (rest : List Page) :
    appendCellPage (D ++ x :: rest) D.length pg = D ++ (x ++ pg) :: rest := by
  induction D with
  | nil => simp [appendCellPage]
  | cons d D ih =>
      have hlt : D.length < (D ++ x :: rest).length := by simp
      unfold appendCellPage at ih ⊢
      rw [if_pos hlt] at ih
      simp only [List.cons_append, List.length_cons]
      rw [if_pos (Nat.succ_lt_succ hlt)]
      rw [List.getD_cons_succ, List.set_cons_succ, ih]

/-- Merging cell pages at slots past the end of the display list pushes them
as new pages. -/
theorem mergeCellPagesFrom_push (cs : List Page) :
    ∀ (dl : List Page) (i : Nat), dl.length = i →
      mergeCellPagesFrom dl i cs = dl ++ cs := by
  induction cs with
  | nil => intro dl i h; simp [mergeCellPagesFrom]
  | cons pg rest ih =>
      intro dl i h
      unfold mergeCellPagesFrom appendCellPage
      rw [if_neg (by omega)]
      rw [ih (dl ++ [pg]) (i + 1) (by simp [h])]
      simp

/-- C2 (amended): after `build_display_list`'s post-processing no page of the
display list is empty; when the chunk has a `body` element but the recursive
walk produced only empty pages, the list is exactly one page holding a single
`Marker` at the body's offset; when the chunk has no `body` element the list
is empty; and a table row's cells are merged slot-wise starting at the row's
first page (mod.rs:722, 749-755), so with two cells of two pages each the
second cell's first page lands on the row's first page slot, ahead of the
first cell's second page — the claimed non-decreasing concatenated offset
sequence does not survive this interleaving. -/
theorem C2_display_list_shape (root : Node) (startOffset : Nat) (recPages : List Page) :
    (∀ p ∈ buildDisplayListPost root startOffset recPages, p ≠ []) ∧
    (∀ body, findNode root "body" = some body →
      (∀ p ∈ recPages, p = []) →
      buildDisplayListPost root startOffset recPages =
        [[DrawCommand.marker (startOffset + body.offsetOf)]]) ∧
    (findNode root "body" = none → buildDisplayListPost root startOffset recPages = []) ∧
    (∀ (pageIdx : Nat) (D : List Page) (P c1 c2 d1 d2 : Page),
      D.length = pageIdx →
      mergeCellPages pageIdx (mergeCellPages pageIdx (D ++ [P]) [c1, c2]) [d1, d2] =
        D ++ [P ++ c1 ++ d1, c2 ++ d2]) := by
  have hmerge : ∀ (pageIdx : Nat) (D : List Page) (P c1 c2 d1 d2 : Page),
      D.length = pageIdx →
      mergeCellPages pageIdx (mergeCellPages pageIdx (D ++ [P]) [c1, c2]) [d1, d2] =
        D ++ [P ++ c1 ++ d1, c2 ++ d2] := by
    intro pageIdx D P c1 c2 d1 d2 hlen
    subst hlen
    have h1 : mergeCellPages D.length (D ++ [P]) [c1, c2] = D ++ [P ++ c1, c2] := by
      show appendCellPage (appendCellPage (D ++ P :: []) D.length c1)
        (D.length + 1) c2 = D ++ [P ++ c1, c2]
      rw [appendCellPage_at D P c1 []]
      have hp2 : appendCellPage (D ++ (P ++ c1) :: []) (D.length + 1) c2 =
          (D ++ (P ++ c1) :: []) ++ [c2] := by
        unfold appendCellPage
        rw [if_neg (by simp)]
      rw [hp2]
      simp
    rw [h1]
    show appendCellPage (appendCellPage (D ++ (P ++ c1) :: [c2]) D.length d1)
      (D.length + 1) d2 = D ++ [P ++ c1 ++ d1, c2 ++ d2]
    rw [appendCellPage_at D (P ++ c1) d1 [c2]]
    rw [show D ++ (P ++ c1 ++ d1) :: [c2] = (D ++ [P ++ c1 ++ d1]) ++ c2 :: [] by simp]
    rw [show D.length + 1 = (D ++ [P ++ c1 ++ d1]).length by simp]
    rw [appendCellPage_at (D ++ [P ++ c1 ++ d1]) c2 d2 []]
    simp
  have hshape : (∀ p ∈ buildDisplayListPost root startOffset recPages, p ≠ []) ∧
      (∀ body, findNode root "body" = some body →
        (∀ p ∈ recPages, p = []) →
        buildDisplayListPost root startOffset recPages =
          [[DrawCommand.marker (startOffset + body.offsetOf)]]) ∧
      (findNode root "body" = none →
        buildDisplayListPost root startOffset recPages = []) := by
    unfold buildDisplayListPost
    cases hfind : findNode root "body" with
    | none =>
        refine ⟨by simp, ?_, by simp⟩
        intro body hbody
        exact absurd hbody (by simp)
    | some body =>
        refine ⟨?_, ?_, by simp⟩
        · intro p hp
          by_cases hkept : (recPages.filter (fun page => !page.isEmpty)).isEmpty
          · simp only [hkept, if_pos] at hp
            simp only [List.mem_singleton] at hp
            subst hp
            simp
          · simp only [hkept, if_neg, Bool.false_eq_true, not_false_iff] at hp
            have := List.of_mem_filter hp
            simpa [List.isEmpty_iff] using this
        · intro body' hbody' hall
          have hb : body' = body := (Option.some.inj hbody').symm
          subst hb
          have hkept : recPages.filter (fun page => !page.isEmpty) = [] := by
            rw [List.filter_eq_nil_iff]
            intro p hp
            simp [hall p hp]
          simp [hkept]
  exact ⟨hshape.1, hshape.2.1, hshape.2.2, hmerge⟩

/-- Witness for C2 at a concrete body-bearing chunk whose recursive walk only
produced the initial empty page, and at a concrete two-cell two-page table
row merge. -/
theorem C2_witness :
    buildDisplayListPost bodyRoot 100 [[]] = [[DrawCommand.marker 120]] ∧
    mergeCellPages 0 (mergeCellPages 0 [[DrawCommand.marker 0]]
        [[DrawCommand.marker 1], [DrawCommand.marker 2]])
        [[DrawCommand.marker 3], [DrawCommand.marker 4]] =
      [[DrawCommand.marker 0, DrawCommand.marker 1, DrawCommand.marker 3],
       [DrawCommand.marker 2, DrawCommand.marker 4]] :=
  ⟨(C2_display_list_shape bodyRoot 100 [[]]).2.1 (Node.element 20 "body" []) rfl
    (by decide),
   by
     have h := (C2_display_list_shape bodyRoot 100 [[]]).2.2.2 0 []
       [DrawCommand.marker 0] [DrawCommand.marker 1] [DrawCommand.marker 2]
       [DrawCommand.marker 3] [DrawCommand.marker 4] rfl
     simpa using h⟩

/-- Counterexample for C2 as stated: a chunk whose document has no `body`
element produces an empty display list — zero pages, not the single sentinel
Marker page the claim requires for a chunk with no content; and a two-cell
table row whose cells each span two pages is merged slot-wise
(mod.rs:749-755), so the second cell's first-page command (offset 3) lands
ahead of the first cell's second-page command (offset 2) and the concatenated
offset sequence 0, 1, 3, 2, 4 of the built display list is not
non-decreasing. -/
theorem C2_counterexample :
    (buildDisplayListPost noBodyRoot 0 [[]] = [] ∧
      (buildDisplayListPost noBodyRoot 0 [[]]).length ≠ 1) ∧
    buildDisplayListPost bodyRoot 0
        (mergeCellPages 0 (mergeCellPages 0 [[DrawCommand.marker 0]]
          [[DrawCommand.marker 1], [DrawCommand.marker 2]])
          [[DrawCommand.marker 3], [DrawCommand.marker 4]]) =
      [[DrawCommand.marker 0, DrawCommand.marker 1, DrawCommand.marker 3],
       [DrawCommand.marker 2, DrawCommand.marker 4]] ∧
    ¬ offsetsNonDecreasing
        [[DrawCommand.marker 0, DrawCommand.marker 1, DrawCommand.marker 3],
         [DrawCommand.marker 2, DrawCommand.marker 4]] := by
  refine ⟨⟨by decide, by decide⟩, by decide, by decide⟩

/-- Counterexample for C6 as stated: with one column of min-width 1 and
max-width 2 in a band of width 10, the summed max-widths (2) are at most the
band width, yet the chosen column widths are the max-widths and sum to 2, not
to the band width. -/
theorem C6_counterexample :
    computeColumnWidths [1] [2] 10 = [2] ∧ ([2] : List Int).sum ≠ 10 := by
  constructor
  · decide
  · decide

/-- A non-empty page's first offset is `some` of its `firstsList` entry. -/
theorem pageFirstOffset_of_ne (p : Page) (hp : p ≠ []) :
    pageFirstOffset p = some ((pageFirstOffset p).getD 0) := by
  cases p with
  | nil => exact absurd rfl hp
  | cons dc rest => rfl

/-- Over a display list with no empty page, looking a page up and taking its
first command offset is exactly looking up the list of page first offsets. -/
theorem get_bind_pageFirstOffset (dl : List Page) (h : ∀ p ∈ dl, p ≠ []) (i : Nat) :
    (dl.get? i).bind pageFirstOffset = (firstsList dl).get? i := by
  unfold firstsList
  rw [List.get?_map]
  cases hg : dl.get? i with
  | none => rfl
  | some p =>
      have hp := h p (List.get?_mem hg)
      simpa using pageFirstOffset_of_ne p hp

/-- The accumulator loop of `lastCoveringIdx` computes the largest qualifying
index, shifted by the running position, or the accumulator when none
qualifies. -/
theorem lastCoveringIdxAux_eq (fs : List Nat) (o : Nat) :
    ∀ k acc, lastCoveringIdxAux fs o k acc =
      (match lastQualIdx fs o with | some m => k + m | none => acc) := by
  induction fs with
  | nil => intro k acc; rfl
  | cons f rest ih =>
      intro k acc
      show lastCoveringIdxAux rest o (k + 1) (if f ≤ o then k else acc) = _
      rw [ih]
      show _ = (match (match lastQualIdx rest o with
                       | some m => some (m + 1)
                       | none => if f ≤ o then some 0 else none) with
                | some m => k + m | none => acc)
      cases lastQualIdx rest o with
      | none => by_cases hf : f ≤ o <;> simp [hf]
      | some m =>
          show k + 1 + m = k + (m + 1)
          omega

/-- A qualifying index returned by `lastQualIdx` is in bounds. -/
theorem lastQualIdx_lt (fs : List Nat) (o : Nat) :
    ∀ m, lastQualIdx fs o = some m → m < fs.length := by
  induction fs with
  | nil => intro m h; exact absurd h (by simp [lastQualIdx])
  | cons f rest ih =>
      intro m h
      show m < rest.length + 1
      unfold lastQualIdx at h
      cases hr : lastQualIdx rest o with
      | none =>
          rw [hr] at h
          by_cases hf : f ≤ o
          · simp [hf] at h
            omega
          · simp [hf] at h
      | some m' =>
          rw [hr] at h
          simp at h
          have := ih m' hr
          omega

/-- The index returned by `lastQualIdx` points at an entry that is at most `o`. -/
theorem lastQualIdx_get (fs : List Nat) (o : Nat) :
    ∀ m, lastQualIdx fs o = some m → ∃ f, fs.get? m = some f ∧ f ≤ o := by
  induction fs with
  | nil => intro m h; exact absurd h (by simp [lastQualIdx])
  | cons f rest ih =>
      intro m h
      unfold lastQualIdx at h
      cases hr : lastQualIdx rest o with
      | none =>
          rw [hr] at h
          by_cases hf : f ≤ o
          · simp [hf] at h
            exact ⟨f, by rw [← h]; rfl, hf⟩
          · simp [hf] at h
      | some m' =>
          rw [hr] at h
          simp at h
          obtain ⟨g, hg, hgo⟩ := ih m' hr
          exact ⟨g, by rw [← h]; simpa using hg, hgo⟩

/-- When `lastQualIdx` finds nothing, no entry is at most `o`. -/
theorem lastQualIdx_none (fs : List Nat) (o : Nat) :
    lastQualIdx fs o = none → ∀ j f, fs.get? j = some f → ¬ f ≤ o := by
  induction fs with
  | nil => intro _ j f hj; simp at hj
  | cons g rest ih =>
      intro h j f hj
      unfold lastQualIdx at h
      cases hr : lastQualIdx rest o with
      | some m' => rw [hr] at h; simp at h
      | none =>
          rw [hr] at h
          by_cases hg : g ≤ o
          · simp [hg] at h
          · cases j with
            | zero =>
                have hgf : g = f := by simpa using hj
                rw [← hgf]
                exact hg
            | succ j' => exact ih hr j' f (by simpa using hj)

/-- `lastQualIdx` returns the largest qualifying index. -/
theorem lastQualIdx_max (fs : List Nat) (o : Nat) :
    ∀ m, lastQualIdx fs o = some m →
      ∀ j f, fs.get? j = some f → f ≤ o → j ≤ m := by
  induction fs with
  | nil => intro m h; exact absurd h (by simp [lastQualIdx])
  | cons g rest ih =>
      intro m h j f hj hf
      unfold lastQualIdx at h
      cases hr : lastQualIdx rest o with
      | none =>
          rw [hr] at h
          by_cases hg : g ≤ o
          · simp [hg] at h
            cases j with
            | zero => omega
            | succ j' =>
                exact absurd hf (lastQualIdx_none rest o hr j' f (by simpa using hj))
          · simp [hg] at h
      | some m' =>
          rw [hr] at h
          simp at h
          cases j with
          | zero => omega
          | succ j' =>
              have := ih m' hr j' f (by simpa using hj) hf
              omega

/-- Some index qualifies as soon as one entry is at most `o`. -/
theorem lastQualIdx_isSome (fs : List Nat) (o : Nat) :
    ∀ j f, fs.get? j = some f → f ≤ o → (lastQualIdx fs o).isSome = true := by
  induction fs with
  | nil => intro j f hj; simp at hj
  | cons g rest ih =>
      intro j f hj hf
      show (match lastQualIdx rest o with
            | some m => some (m + 1)
            | none => if g ≤ o then some 0 else none).isSome = true
      cases hr : lastQualIdx rest o with
      | some m' => simp
      | none =>
          cases j with
          | zero =>
              have hgf : g = f := by simpa using hj
              have hgo : g ≤ o := by rw [hgf]; exact hf
              simp [hgo]
          | succ j' =>
              have := ih j' f (by simpa using hj) hf
              rw [hr] at this
              simp at this

/-- `lastCoveringIdx` is the largest qualifying index, or 0 when no page's
first offset is at most `o`. -/
theorem lastCoveringIdx_spec (fs : List Nat) (o : Nat) :
    lastCoveringIdx fs o = (match lastQualIdx fs o with | some m => m | none => 0) := by
  unfold lastCoveringIdx
  rw [lastCoveringIdxAux_eq]
  cases lastQualIdx fs o <;> simp

/-- `lastCoveringIdx` stays in bounds for a non-empty list. -/
theorem lastCoveringIdx_lt (fs : List Nat) (o : Nat) (h : fs ≠ []) :
    lastCoveringIdx fs o < fs.length := by
  rw [lastCoveringIdx_spec]
  cases hq : lastQualIdx fs o with
  | none =>
      have : 0 < fs.length := List.length_pos.mpr h
      simpa using this
  | some m => simpa using lastQualIdx_lt fs o m hq

/-- Monotonicity of `get?` entries along a `≤`-sorted list. -/
theorem sorted_get?_le (fs : List Nat) (hs : List.Pairwise (· ≤ ·) fs) {i j fi fj : Nat}
    (hij : i < j) (hi : fs.get? i = some fi) (hj : fs.get? j = some fj) : fi ≤ fj := by
  rw [List.get?_eq_some] at hi hj
  obtain ⟨hi', hieq⟩ := hi
  obtain ⟨hj', hjeq⟩ := hj
  subst hieq
  subst hjeq
  exact List.pairwise_iff_get.mp hs ⟨i, hi'⟩ ⟨j, hj'⟩ hij

/-- Strict monotonicity of `get?` entries along a `<`-sorted list. -/
theorem sorted_get?_lt (fs : List Nat) (hs : List.Pairwise (· < ·) fs) {i j fi fj : Nat}
    (hij : i < j) (hi : fs.get? i = some fi) (hj : fs.get? j = some fj) : fi < fj := by
  rw [List.get?_eq_some] at hi hj
  obtain ⟨hi', hieq⟩ := hi
  obtain ⟨hj', hjeq⟩ := hj
  subst hieq
  subst hjeq
  exact List.pairwise_iff_get.mp hs ⟨i, hi'⟩ ⟨j, hj'⟩ hij

/-- `find?` returns the unique element satisfying the predicate. -/
theorem find?_eq_some_of_unique {α : Type} (l : List α) (p : α → Bool) (m : α)
    (hmem : m ∈ l) (hp : p m = true) (huniq : ∀ x ∈ l, p x = true → x = m) :
    l.find? p = some m := by
  induction l with
  | nil => exact absurd hmem (by simp)
  | cons a rest ih =>
      by_cases ha : p a = true
      · have : a = m := huniq a (by simp) ha
        subst this
        simp [List.find?_cons_of_pos _ ha]
      · have hne : a ≠ m := fun he => ha (he ▸ hp)
        have hmem' : m ∈ rest := by
          rcases List.mem_cons.mp hmem with h | h
          · exact absurd h.symm hne
          · exact h
        rw [List.find?_cons_of_neg _ (by simpa using ha)]
        exact ih hmem' (fun x hx => huniq x (List.mem_cons_of_mem a hx))

/-- Over a non-empty `≤`-sorted list of page first offsets, the `page_index`
scan selects exactly the last index whose entry is at most `offset` (0 when
`offset` precedes every entry). -/
theorem pageIndexFs_eq_covering (fs : List Nat) (o : Nat) (_hne : fs ≠ [])
    (hs : List.Pairwise (· ≤ ·) fs) : pageIndexFs fs o = lastCoveringIdx fs o := by
  rw [lastCoveringIdx_spec]
  unfold pageIndexFs
  by_cases h1 : fs.length < 2 ∨ (fs.get? 1).map (fun f => decide (o < f)) = some true
  · rw [if_pos h1]
    cases hq : lastQualIdx fs o with
    | none => rfl
    | some m =>
        show 0 = m
        rcases h1 with h1 | h1
        · have hm := lastQualIdx_lt fs o m hq
          omega
        · cases hg1 : fs.get? 1 with
          | none => rw [hg1] at h1; exact absurd h1 (by simp)
          | some f1 =>
              rw [hg1] at h1
              have hof1 : o < f1 := by simpa using h1
              obtain ⟨fm, hgm, hfm⟩ := lastQualIdx_get fs o m hq
              rcases Nat.eq_zero_or_pos m with hm0 | hmpos
              · omega
              · exfalso
                have hle : f1 ≤ fm := by
                  rcases Nat.lt_or_ge 1 m with hlt | hge
                  · exact sorted_get?_le fs hs hlt hg1 hgm
                  · have hm1 : m = 1 := by omega
                    subst hm1
                    rw [hg1] at hgm
                    have : f1 = fm := Option.some.inj hgm
                    omega
                omega
  · rw [if_neg h1]
    push_neg at h1
    obtain ⟨h1len, h1map⟩ := h1
    have hlen2 : 2 ≤ fs.length := h1len
    obtain ⟨f1, hg1⟩ : ∃ f1, fs.get? 1 = some f1 :=
      ⟨fs.get ⟨1, by omega⟩, List.get?_eq_get (by omega)⟩
    have hf1o : f1 ≤ o := by
      by_contra hcon
      exact h1map (by rw [hg1]; simp; omega)
    have hqs := lastQualIdx_isSome fs o 1 f1 hg1 hf1o
    obtain ⟨m, hq⟩ := Option.isSome_iff_exists.mp hqs
    rw [hq]
    by_cases h2 : (fs.get? (fs.length - 1)).map (fun f => decide (f ≤ o)) = some true
    · rw [if_pos h2]
      show fs.length - 1 = m
      cases hgl : fs.get? (fs.length - 1) with
      | none => rw [hgl] at h2; exact absurd h2 (by simp)
      | some flast =>
          rw [hgl] at h2
          have hflast : flast ≤ o := by simpa using h2
          have h1m : fs.length - 1 ≤ m := lastQualIdx_max fs o m hq _ flast hgl hflast
          have hmlt : m < fs.length := lastQualIdx_lt fs o m hq
          omega
    · rw [if_neg h2]
      obtain ⟨flast, hgl⟩ : ∃ flast, fs.get? (fs.length - 1) = some flast :=
        ⟨fs.get ⟨fs.length - 1, by omega⟩, List.get?_eq_get (by omega)⟩
      have hoflast : o < flast := by
        by_contra hcon
        exact h2 (by rw [hgl]; simp; omega)
      have hm1 : 1 ≤ m := lastQualIdx_max fs o m hq 1 f1 hg1 hf1o
      have hmlt : m < fs.length := lastQualIdx_lt fs o m hq
      obtain ⟨fm, hgm, hfmo⟩ := lastQualIdx_get fs o m hq
      have hmne : m ≠ fs.length - 1 := by
        intro he
        rw [he, hgl] at hgm
        have : flast = fm := Option.some.inj hgm
        omega
      have hm1lt : m + 1 < fs.length := by omega
      obtain ⟨fm1, hgm1⟩ : ∃ g, fs.get? (m + 1) = some g :=
        ⟨fs.get ⟨m + 1, hm1lt⟩, List.get?_eq_get hm1lt⟩
      have hofm1 : o < fm1 := by
        by_contra hcon
        have := lastQualIdx_max fs o m hq (m + 1) fm1 hgm1 (by omega)
        omega
      have hfind : (List.range' 1 (fs.length - 2)).find? (fun i =>
          ((fs.get? i).map (fun f => decide (f ≤ o)) == some true) &&
          ((fs.get? (i + 1)).map (fun f => decide (o < f)) == some true)) = some m := by
        apply find?_eq_some_of_unique
        · rw [List.mem_range'_1]; omega
        · rw [hgm, hgm1]; simp [hfmo, hofm1]
        · intro x hx hpx
          rw [List.mem_range'_1] at hx
          obtain ⟨fx, hgx⟩ : ∃ g, fs.get? x = some g :=
            ⟨fs.get ⟨x, by omega⟩, List.get?_eq_get (by omega)⟩
          obtain ⟨fx1, hgx1⟩ : ∃ g, fs.get? (x + 1) = some g :=
            ⟨fs.get ⟨x + 1, by omega⟩, List.get?_eq_get (by omega)⟩
          rw [hgx, hgx1] at hpx
          simp at hpx
          obtain ⟨hfx, hfx1⟩ := hpx
          have hxm : x ≤ m := lastQualIdx_max fs o m hq x fx hgx hfx
          have hmx : m ≤ x := by
            by_contra hcon
            have hle : fx1 ≤ fm := by
              rcases Nat.lt_or_ge (x + 1) m with hlt | hge
              · exact sorted_get?_le fs hs hlt hgx1 hgm
              · have hxe : x + 1 = m := by omega
                rw [hxe, hgm] at hgx1
                have : fm = fx1 := Option.some.inj hgx1
                omega
            omega
          omega
      rw [hfind]

/-- `page_index` over a display list with no empty page agrees with its mirror
over the bare page first offsets. -/
theorem pageIndexPure_eq_fs (dl : List Page) (o : Nat) (h : ∀ p ∈ dl, p ≠ []) :
    pageIndexPure dl o = pageIndexFs (firstsList dl) o := by
  unfold pageIndexPure pageIndexFs
  simp only [get_bind_pageFirstOffset dl h, firstsList, List.length_map]

/-- Under the documented display-list invariant, `page_index` selects exactly
the covering page of claim C1. -/
theorem pageIndexPure_eq_covering (dl : List Page) (o : Nat) (hne : dl ≠ [])
    (hpages : ∀ p ∈ dl, p ≠ []) (hs : List.Pairwise (· ≤ ·) (firstsList dl)) :
    pageIndexPure dl o = lastCoveringIdx (firstsList dl) o := by
  rw [pageIndexPure_eq_fs dl o hpages]
  exact pageIndexFs_eq_covering (firstsList dl) o
    (by simpa [firstsList] using hne) hs

/-- C1 (amended): for a global offset `o` owned by spine chunk `i` whose
display list is non-empty, has no empty page, and has non-decreasing page
first-command offsets, `resolve_location(Exact(o))` returns `Some r`, where `r`
is the first-command offset of the last page whose first-command offset is at
most `o` (the first page when `o` precedes every page's first-command
offset). -/
theorem C1_resolve_exact_covering (spine : List Nat) (dls : Nat → List Page)
    (o i start : Nat)
    (hv : vertebraCoordinates spine o = some (i, start))
    (hwf : wellFormedDL (dls i)) :
    resolveLocationExact spine dls o =
      ((dls i).get? (lastCoveringIdx (firstsList (dls i)) o)).bind pageFirstOffset ∧
    (((dls i).get? (lastCoveringIdx (firstsList (dls i)) o)).bind pageFirstOffset).isSome
      = true := by
  obtain ⟨hne, hpages, hs⟩ := hwf
  have hre : resolveLocationExact spine dls o =
      ((dls i).get? (pageIndexPure (dls i) o)).bind pageFirstOffset := by
    unfold resolveLocationExact
    rw [hv]
  constructor
  · rw [hre, pageIndexPure_eq_covering (dls i) o hne hpages hs]
  · have hlt : lastCoveringIdx (firstsList (dls i)) o < (dls i).length := by
      have h1 := lastCoveringIdx_lt (firstsList (dls i)) o (by simpa [firstsList] using hne)
      simpa [firstsList, List.length_map] using h1
    obtain ⟨p, hp⟩ : ∃ p, (dls i).get? (lastCoveringIdx (firstsList (dls i)) o) = some p :=
      ⟨_, List.get?_eq_get hlt⟩
    rw [hp]
    have hpne := hpages p (List.get?_mem hp)
    rw [Option.some_bind]
    rw [pageFirstOffset_of_ne p hpne]
    rfl

/-- Witness for C1: a concrete three-page display list with first offsets
0, 4, 8 and the in-chunk offset 5, which the covering-page rule sends to the
page starting at offset 4. -/
theorem C1_witness :
    resolveLocationExact [10] dlsSample 5 = some 4 := by
  rw [(C1_resolve_exact_covering [10] dlsSample 5 0 0 (by decide) (by decide)).1]
  decide

/-- Counterexample for C1 as stated: offset 5 lies inside the single chunk of
size 10, but when the chunk's document has no `body` element its built display
list is empty and `resolve_location(Exact(5))` yields no offset (the Rust code
panics on the out-of-bounds page index; the total model returns `none`) —
there is no `Some r`. -/
theorem C1_counterexample :
    (5 : Nat) < List.sum [10] ∧
    resolveLocationExact [10] (fun _ => buildDisplayListPost noBodyRoot 0 [[]]) 5 = none := by
  constructor
  · decide
  · decide

/-- C3 (amended): when `Previous(o)` stays inside `o`'s chunk, `Next` of its
result also stays inside that chunk, and the chunk's display list is well
formed with strictly increasing page first-command offsets (every first offset
lying inside the chunk), the round trip `Next(Previous(o))` lands back on the
page that `Exact(o)` reports. -/
theorem C3_roundtrip_strict (spine : List Nat) (dls : Nat → List Page)
    (o p i start : Nat)
    (hv : vertebraCoordinates spine o = some (i, start))
    (hwf : wellFormedDL (dls i))
    (hstrict : List.Pairwise (· < ·) (firstsList (dls i)))
    (hin : ∀ f ∈ firstsList (dls i), vertebraCoordinates spine f = some (i, start))
    (hprev : resolveLocationPrevious spine dls o = some p)
    (hstay : 0 < pageIndexPure (dls i) o)
    (hnext : pageIndexPure (dls i) p < (dls i).length - 1) :
    resolveLocationNext spine dls p = resolveLocationExact spine dls o := by
  obtain ⟨hne, hpages, hs⟩ := hwf
  have hprev' : ((dls i).get? (pageIndexPure (dls i) o - 1)).bind pageFirstOffset = some p := by
    unfold resolveLocationPrevious at hprev
    rw [hv] at hprev
    simpa [hstay] using hprev
  have hfsk : (firstsList (dls i)).get? (pageIndexPure (dls i) o - 1) = some p := by
    rw [← get_bind_pageFirstOffset (dls i) hpages]
    exact hprev'
  have hpmem : p ∈ firstsList (dls i) := List.get?_mem hfsk
  have hvp := hin p hpmem
  have hkp : pageIndexPure (dls i) p = pageIndexPure (dls i) o - 1 := by
    rw [pageIndexPure_eq_covering (dls i) p hne hpages hs, lastCoveringIdx_spec]
    have hqs := lastQualIdx_isSome (firstsList (dls i)) p _ p hfsk le_rfl
    obtain ⟨m, hq⟩ := Option.isSome_iff_exists.mp hqs
    rw [hq]
    show m = pageIndexPure (dls i) o - 1
    have h1 := lastQualIdx_max (firstsList (dls i)) p m hq _ p hfsk le_rfl
    obtain ⟨fm, hgm, hfm⟩ := lastQualIdx_get (firstsList (dls i)) p m hq
    have h2 : m ≤ pageIndexPure (dls i) o - 1 := by
      by_contra hcon
      have hlt : p < fm :=
        sorted_get?_lt (firstsList (dls i)) hstrict (by omega) hfsk hgm
      omega
    omega
  have hknat : pageIndexPure (dls i) o - 1 + 1 = pageIndexPure (dls i) o := by omega
  unfold resolveLocationNext resolveLocationExact
  rw [hvp, hv]
  simp only [hkp]
  rw [if_pos (by rw [hkp] at hnext; exact hnext)]
  rw [hknat]

/-- Witness for C3: strictly increasing page first offsets 0, 3, 7; from
offset 4 (page 1), `Previous` reaches page 0 (offset 0) and `Next` of that
returns to the page that `Exact(4)` reports. -/
theorem C3_witness :
    resolveLocationNext [10] dlsStrict 0 = resolveLocationExact [10] dlsStrict 4 :=
  C3_roundtrip_strict [10] dlsStrict 4 0 0 0 (by decide) (by decide) (by decide)
    (by decide) (by decide) (by decide) (by decide)

/-- Counterexample for C3 as stated: the display list with page first offsets
0, 5, 5, 9 satisfies the documented invariant (non-decreasing, no empty page),
`Previous(5)` stays inside the chunk and returns offset 5, `Next(5)` stays
inside the chunk as well, yet `Next(Previous(5))` yields offset 9 while
`Exact(5)` yields offset 5. -/
theorem C3_counterexample :
    wellFormedDL (dlsDup 0) ∧
    resolveLocationPrevious [10] dlsDup 5 = some 5 ∧
    0 < pageIndexPure (dlsDup 0) 5 ∧
    pageIndexPure (dlsDup 0) 5 < (dlsDup 0).length - 1 ∧
    resolveLocationNext [10] dlsDup 5 = some 9 ∧
    resolveLocationExact [10] dlsDup 5 = some 5 ∧
    resolveLocationNext [10] dlsDup 5 ≠ resolveLocationExact [10] dlsDup 5 := by
  refine ⟨by decide, by decide, by decide, by decide, by decide, by decide, by decide⟩

/-- The spine walk returns `none` past the end of the spine. -/
theorem vertebraCoordinatesAux_none (spine : List Nat) (o : Nat) :
    ∀ index startOffset, startOffset + spine.sum ≤ o →
      vertebraCoordinatesAux spine o index startOffset = none := by
  induction spine with
  | nil => intro _ _ _; rfl
  | cons size rest ih =>
      intro idx s0 h
      rw [List.sum_cons] at h
      show (if o < s0 + size then _ else _) = _
      rw [if_neg (by omega)]
      exact ih (idx + 1) (s0 + size) (by omega)

/-- C10: for every global offset at or past the sum of all spine chunk sizes,
the chunk lookup returns `none`, and `resolve_location(Exact(offset))`,
`words`, `links`, `images` and `pixmap` at that offset all return `none`
rather than clamping to the last page. -/
theorem C10_out_of_range {Pix : Type} (renderPage : Page → Pix) (spine : List Nat)
    (dls : Nat → List Page) (resolveLinkFn : String → Option Nat)
    (localUriFn : Nat → String → String) (o : Nat) (h : spine.sum ≤ o) :
    vertebraCoordinates spine o = none ∧
    resolveLocationExact spine dls o = none ∧
    words spine dls resolveLinkFn localUriFn (Location.exact o) = none ∧
    links spine dls resolveLinkFn localUriFn (Location.exact o) = none ∧
    images spine dls resolveLinkFn localUriFn (Location.exact o) = none ∧
    pixmap renderPage spine dls resolveLinkFn localUriFn (Location.exact o) = none := by
  have hvert : vertebraCoordinates spine o = none :=
    vertebraCoordinatesAux_none spine o 0 0 (by omega)
  have hexact : resolveLocationExact spine dls o = none := by
    unfold resolveLocationExact
    rw [hvert]
  refine ⟨hvert, hexact, ?_, ?_, ?_, ?_⟩
  · by_cases hsp : spine = [] <;> simp [words, hsp, resolveLocation, hexact]
  · by_cases hsp : spine = [] <;> simp [links, hsp, resolveLocation, hexact]
  · by_cases hsp : spine = [] <;> simp [images, hsp, resolveLocation, hexact]
  · by_cases hsp : spine = [] <;> simp [pixmap, hsp, resolveLocation, hexact]

/-- Rounding half away from zero overshoots by at most one half. -/
theorem roundAway_cast_le (q : ℚ) : ((roundAway q : Int) : ℚ) ≤ q + 1/2 := by
  unfold roundAway
  by_cases h : 0 ≤ q
  · rw [if_pos h]
    exact_mod_cast Int.floor_le (q + 1/2)
  · rw [if_neg h]
    push_cast
    have hf := Int.sub_one_lt_floor (1/2 - q)
    linarith

/-- Rounding half away from zero undershoots by at most one half. -/
theorem roundAway_cast_ge (q : ℚ) : q - 1/2 ≤ ((roundAway q : Int) : ℚ) := by
  unfold roundAway
  by_cases h : 0 ≤ q
  · rw [if_pos h]
    have hf := Int.sub_one_lt_floor (q + 1/2)
    linarith
  · rw [if_neg h]
    push_cast
    have hf := Int.floor_le (1/2 - q)
    linarith

/-- A rational strictly below an integer rounds to at most that integer. -/
theorem roundAway_le_of_lt (q : ℚ) (w : Int) (h : q < (w : ℚ)) : roundAway q ≤ w := by
  have h1 := roundAway_cast_le q
  have h2 : ((roundAway q : Int) : ℚ) < ((w + 1 : Int) : ℚ) := by push_cast; linarith
  have h3 : roundAway q < w + 1 := by exact_mod_cast h2
  omega

/-- A non-positive rational rounds to a non-positive integer. -/
theorem roundAway_nonpos (q : ℚ) (h : q ≤ 0) : roundAway q ≤ 0 := by
  have h1 := roundAway_cast_le q
  have h2 : ((roundAway q : Int) : ℚ) < ((1 : Int) : ℚ) := by push_cast; linarith
  have h3 : roundAway q < 1 := by exact_mod_cast h2
  omega

/-- Summing individually rounded rationals drifts from the exact sum by at most
half a unit per entry. -/
theorem sum_roundAway_bound (xs : List ℚ) :
    |(((xs.map roundAway).sum : Int) : ℚ) - xs.sum| ≤ (xs.length : ℚ) * (1/2) := by
  induction xs with
  | nil => simp
  | cons x rest ih =>
      have h1 := roundAway_cast_le x
      have h2 := roundAway_cast_ge x
      have hstep : |((roundAway x : Int) : ℚ) - x| ≤ 1/2 := by
        rw [abs_le]
        constructor <;> linarith
      have key : ((((x :: rest).map roundAway).sum : Int) : ℚ) - (x :: rest).sum
          = (((roundAway x : Int) : ℚ) - x) +
            ((((rest.map roundAway).sum : Int) : ℚ) - rest.sum) := by
        simp only [List.map_cons, List.sum_cons]
        rw [Int.cast_add]
        ring
      rw [key]
      have htri := abs_add (((roundAway x : Int) : ℚ) - x)
        ((((rest.map roundAway).sum : Int) : ℚ) - rest.sum)
      have hlen : (((x :: rest).length : Nat) : ℚ) * (1/2)
          = 1/2 + ((rest.length : Nat) : ℚ) * (1/2) := by
        simp only [List.length_cons]
        push_cast
        ring
      rw [hlen]
      calc |(((roundAway x : Int) : ℚ) - x) +
            ((((rest.map roundAway).sum : Int) : ℚ) - rest.sum)|
          ≤ |((roundAway x : Int) : ℚ) - x| +
            |(((rest.map roundAway).sum : Int) : ℚ) - rest.sum| := htri
        _ ≤ 1/2 + ((rest.length : Nat) : ℚ) * (1/2) := add_le_add hstep ih

/-- Multiplying each cast entry by a constant factors out of a list sum. -/
theorem sum_map_mul_const (l : List Int) (c : ℚ) :
    (l.map (fun (w : Int) => (w : ℚ) * c)).sum = (l.map (fun (w : Int) => (w : ℚ))).sum * c := by
  induction l with
  | nil => simp
  | cons a rest ih =>
      simp only [List.map_cons, List.sum_cons, ih]
      ring

/-- Casting an integer list sum to the rationals is the sum of the casts. -/
theorem cast_list_sum_rat (l : List Int) :
    ((l.sum : Int) : ℚ) = (l.map (fun (w : Int) => (w : ℚ))).sum := by
  induction l with
  | nil => simp
  | cons a rest ih =>
      simp only [List.sum_cons, List.map_cons]
      rw [Int.cast_add, ih]

/-- C6 (amended): when the summed max-widths fit in the band, the chosen column
widths are exactly the per-column max-widths (so they sum to the summed
max-widths, not to the band); when the summed min-widths reach the band, each
chosen width is the column's min-width scaled to the band and rounded, so the
widths' sum differs from the band width by at most half a pixel per column. -/
theorem C6_column_widths (minWidths maxWidths : List Int) (width : Int) :
    (minWidths.sum < width → maxWidths.sum ≤ width →
      computeColumnWidths minWidths maxWidths width = maxWidths) ∧
    (width ≤ minWidths.sum → 0 < minWidths.sum →
      |2 * ((computeColumnWidths minWidths maxWidths width).sum - width)|
        ≤ (minWidths.length : Int)) := by
  constructor
  · intro h1 h2
    unfold computeColumnWidths
    rw [if_neg (by omega), if_pos h2]
  · intro h1 h2
    unfold computeColumnWidths
    rw [if_pos h1]
    set m : ℚ := ((minWidths.sum : Int) : ℚ) with hm
    have hm0 : m ≠ 0 := by
      rw [hm]
      exact_mod_cast (by omega : (minWidths.sum : Int) ≠ 0)
    set xs : List ℚ := minWidths.map (fun w => ((w : Int) : ℚ) / m * ((width : Int) : ℚ))
      with hxs
    have hmap : minWidths.map (fun w => roundAway (((w : Int) : ℚ) / m * ((width : Int) : ℚ)))
        = xs.map roundAway := by
      rw [hxs, List.map_map]
      rfl
    rw [hmap]
    have hsum : xs.sum = ((width : Int) : ℚ) := by
      have hfac : xs = minWidths.map (fun (w : Int) => ((w : Int) : ℚ) * (((width : Int) : ℚ) / m)) := by
        rw [hxs]
        apply List.map_congr_left
        intro a _
        ring
      rw [hfac, sum_map_mul_const, ← cast_list_sum_rat, ← hm]
      field_simp
    have hbound := sum_roundAway_bound xs
    rw [hsum] at hbound
    have hlenx : xs.length = minWidths.length := by
      rw [hxs, List.length_map]
    rw [hlenx] at hbound
    have h2q : |(2 : ℚ) * ((((xs.map roundAway).sum : Int) : ℚ) - ((width : Int) : ℚ))|
        ≤ ((minWidths.length : Nat) : ℚ) := by
      rw [abs_mul]
      rw [abs_of_nonneg (by norm_num : (0:ℚ) ≤ 2)]
      linarith
    have hfinal : ((|2 * ((xs.map roundAway).sum - width)| : Int) : ℚ)
        ≤ (((minWidths.length : Nat) : Int) : ℚ) := by
      push_cast
      push_cast at h2q
      linarith [h2q]
    exact_mod_cast hfinal

/-- Witness for C6 exercising the max-width branch at the concrete single
column with min-width 1, max-width 2 and band width 10. -/
theorem C6_witness :
    computeColumnWidths [1] [2] 10 = [2] :=
  (C6_column_widths [1] [2] 10).1 (by decide) (by decide)

/-- When the height clamp fires and leaves both dimensions positive, the
scaled-down width does not grow. -/
theorem floatClampHeight_width_le (maxH vm w h : Int) (s : ℚ)
    (hclamp : maxH < h + vm)
    (hw : 0 < (floatClampHeight maxH vm w h s).1)
    (hh : 0 < (floatClampHeight maxH vm w h s).2.1) :
    (floatClampHeight maxH vm w h s).1 ≤ w := by
  unfold floatClampHeight at hw hh ⊢
  rw [if_pos hclamp] at hw hh ⊢
  simp only at hw hh ⊢
  have hmh : 0 < maxH - vm := hh
  have hhpos : maxH - vm < h := by omega
  have hh0 : (0 : ℚ) < (h : ℚ) := by exact_mod_cast (by omega : (0 : Int) < h)
  have hn0 : (0 : ℚ) < ((maxH - vm : Int) : ℚ) := by exact_mod_cast hmh
  have hfacpos : (0 : ℚ) < ((maxH - vm : Int) : ℚ) / (h : ℚ) := div_pos hn0 hh0
  have hfaclt : ((maxH - vm : Int) : ℚ) / (h : ℚ) < 1 := by
    rw [div_lt_one hh0]
    exact_mod_cast hhpos
  by_cases hwpos : 0 < w
  · have hwq : (0 : ℚ) < (w : ℚ) := by exact_mod_cast hwpos
    have hlt : ((maxH - vm : Int) : ℚ) / (h : ℚ) * (w : ℚ) < (w : ℚ) := by
      calc ((maxH - vm : Int) : ℚ) / (h : ℚ) * (w : ℚ) < 1 * (w : ℚ) := by
            exact mul_lt_mul_of_pos_right hfaclt hwq
        _ = (w : ℚ) := one_mul _
    exact roundAway_le_of_lt _ w hlt
  · exfalso
    have hwle : (w : ℚ) ≤ 0 := by exact_mod_cast (by omega : w ≤ (0 : Int))
    have hq : ((maxH - vm : Int) : ℚ) / (h : ℚ) * (w : ℚ) ≤ 0 :=
      mul_nonpos_of_nonneg_of_nonpos (le_of_lt hfacpos) hwle
    have := roundAway_nonpos _ hq
    omega

/-- Both clamps together keep the width within `maxW` and the height within
`maxH` (margins included) whenever the element survives the positivity test. -/
theorem floatClamps_bound (maxW maxH hm vm w h : Int) (s : ℚ)
    (hw : 0 < (floatClampHeight maxH vm (floatClampWidth maxW hm w h s).1
                 (floatClampWidth maxW hm w h s).2.1
                 (floatClampWidth maxW hm w h s).2.2).1)
    (hh : 0 < (floatClampHeight maxH vm (floatClampWidth maxW hm w h s).1
                 (floatClampWidth maxW hm w h s).2.1
                 (floatClampWidth maxW hm w h s).2.2).2.1) :
    (floatClampHeight maxH vm (floatClampWidth maxW hm w h s).1
       (floatClampWidth maxW hm w h s).2.1
       (floatClampWidth maxW hm w h s).2.2).1 + hm ≤ maxW ∧
    (floatClampHeight maxH vm (floatClampWidth maxW hm w h s).1
       (floatClampWidth maxW hm w h s).2.1
       (floatClampWidth maxW hm w h s).2.2).2.1 + vm ≤ maxH := by
  have hc1w : (floatClampWidth maxW hm w h s).1 + hm ≤ maxW := by
    unfold floatClampWidth
    by_cases hc1 : maxW < w + hm
    · rw [if_pos hc1]
      simp only
      omega
    · rw [if_neg hc1]
      simp only
      omega
  by_cases hc2 : maxH < (floatClampWidth maxW hm w h s).2.1 + vm
  · constructor
    · have hle := floatClampHeight_width_le maxH vm (floatClampWidth maxW hm w h s).1
        (floatClampWidth maxW hm w h s).2.1 (floatClampWidth maxW hm w h s).2.2 hc2 hw hh
      omega
    · unfold floatClampHeight
      rw [if_pos hc2]
      simp only
      omega
  · have heq : floatClampHeight maxH vm (floatClampWidth maxW hm w h s).1
        (floatClampWidth maxW hm w h s).2.1 (floatClampWidth maxW hm w h s).2.2
        = ((floatClampWidth maxW hm w h s).1, (floatClampWidth maxW hm w h s).2.1,
           (floatClampWidth maxW hm w h s).2.2) := by
      unfold floatClampHeight
      rw [if_neg hc2]
    rw [heq]
    simp only
    omega

/-- One step of the float loop either leaves the keyed float list alone or
appends a rectangle whose width (margins included) is at most one third of the
line width and whose height (margins included) is at most two thirds of the
remaining vertical space below its own top edge; float lists of other pages
are untouched. -/
theorem placeFloat_shape (ctx : FloatContext) (st : FloatState) (e : ImageElement) :
    (∀ r ∈ (placeFloat ctx st e).floats ctx.pageIdx,
        r ∈ st.floats ctx.pageIdx ∨
        (r.maxX - r.minX ≤ Int.tdiv ctx.lineWidth 3 ∧
         r.maxY - r.minY ≤ Int.tdiv (2 * (ctx.rectMaxY - ctx.spaceBottom - r.minY)) 3)) ∧
    (∀ k, k ≠ ctx.pageIdx → (placeFloat ctx st e).floats k = st.floats k) := by
  unfold placeFloat
  simp only
  by_cases hpos : 0 < (floatClampHeight
      (Int.tdiv (2 * (ctx.rectMaxY - ctx.spaceBottom - floatYMin ctx st e)) 3)
      (e.margin.top + e.margin.bottom)
      (floatClampWidth (Int.tdiv ctx.lineWidth 3) (e.margin.left + e.margin.right)
        e.width e.height e.scale).1
      (floatClampWidth (Int.tdiv ctx.lineWidth 3) (e.margin.left + e.margin.right)
        e.width e.height e.scale).2.1
      (floatClampWidth (Int.tdiv ctx.lineWidth 3) (e.margin.left + e.margin.right)
        e.width e.height e.scale).2.2).1 ∧
      0 < (floatClampHeight
      (Int.tdiv (2 * (ctx.rectMaxY - ctx.spaceBottom - floatYMin ctx st e)) 3)
      (e.margin.top + e.margin.bottom)
      (floatClampWidth (Int.tdiv ctx.lineWidth 3) (e.margin.left + e.margin.right)
        e.width e.height e.scale).1
      (floatClampWidth (Int.tdiv ctx.lineWidth 3) (e.margin.left + e.margin.right)
        e.width e.height e.scale).2.1
      (floatClampWidth (Int.tdiv ctx.lineWidth 3) (e.margin.left + e.margin.right)
        e.width e.height e.scale).2.2).2.1
  · rw [if_pos hpos]
    obtain ⟨hbw, hbh⟩ := floatClamps_bound (Int.tdiv ctx.lineWidth 3)
      (Int.tdiv (2 * (ctx.rectMaxY - ctx.spaceBottom - floatYMin ctx st e)) 3)
      (e.margin.left + e.margin.right) (e.margin.top + e.margin.bottom)
      e.width e.height e.scale hpos.1 hpos.2
    constructor
    · intro r hr
      simp only at hr
      simp only [if_true, List.mem_append, List.mem_singleton] at hr
      rcases hr with hr | hr
      · exact Or.inl hr
      · refine Or.inr ?_
        by_cases hside : e.float = some FloatSide.left
        · rw [if_pos hside] at hr
          subst hr
          exact ⟨by simp only; omega, by simp only; omega⟩
        · rw [if_neg hside] at hr
          subst hr
          exact ⟨by simp only; omega, by simp only; omega⟩
    · intro k hk
      simp only
      rw [if_neg hk]
  · rw [if_neg hpos]
    exact ⟨fun r hr => Or.inl hr, fun _ _ => rfl⟩

/-- C7: every rectangle the float-placement loop records in the per-page float
list keyed by the paragraph's starting display-list page index has width
including horizontal margins at most one third of the available line width and
height including vertical margins at most two thirds of the remaining vertical
space on the page below its top edge; float lists keyed by any other page
index are left unchanged. -/
theorem C7_float_clamped (ctx : FloatContext) (st : FloatState)
    (elements : List ImageElement) :
    (∀ r, r ∈ (placeFloats ctx st elements).floats ctx.pageIdx →
        r ∈ st.floats ctx.pageIdx ∨
        (r.maxX - r.minX ≤ Int.tdiv ctx.lineWidth 3 ∧
         r.maxY - r.minY ≤ Int.tdiv (2 * (ctx.rectMaxY - ctx.spaceBottom - r.minY)) 3)) ∧
    (∀ k, k ≠ ctx.pageIdx → (placeFloats ctx st elements).floats k = st.floats k) := by
  induction elements generalizing st with
  | nil => exact ⟨fun r hr => Or.inl hr, fun _ _ => rfl⟩
  | cons e rest ih =>
      have hstep := placeFloat_shape ctx st e
      have hrest := ih (placeFloat ctx st e)
      constructor
      · intro r hr
        have hr' : r ∈ (placeFloats ctx (placeFloat ctx st e) rest).floats ctx.pageIdx := hr
        rcases hrest.1 r hr' with h | h
        · exact hstep.1 r h
        · exact Or.inr h
      · intro k hk
        have h1 : (placeFloats ctx st (e :: rest)).floats k
            = (placeFloats ctx (placeFloat ctx st e) rest).floats k := rfl
        rw [h1, hrest.2 k hk, hstep.2 k hk]

/-- A chunk box is a box. -/
theorem boxFromChunk_is_box (env : BreakEnv) (element : TextElement) (chunk : List Char)
    (idx : Nat) : ∃ w dd, boxFromChunk env element chunk idx = ParagraphItem.box w dd :=
  ⟨_, _, rfl⟩

/-- One segment push only adds boxes or the flagged hyphen penalty. -/
theorem pushSegStep_shape (env : BreakEnv) (element : TextElement) (hyphenWidth : Int)
    (subchunkLen base : Nat) (st : List ParagraphItem × Nat) (seg : List Char) :
    ∀ x ∈ (pushSegStep env element hyphenWidth subchunkLen base st seg).1,
      x ∈ st.1 ∨ (∃ w dd, x = ParagraphItem.box w dd) ∨
      x = ParagraphItem.penalty hyphenWidth HYPHEN_PENALTY true := by
  intro x hx
  unfold pushSegStep at hx
  simp only at hx
  by_cases hc : st.2 + seg.length < subchunkLen
  · rw [if_pos hc] at hx
    rcases List.mem_append.mp hx with hx | hx
    · rcases List.mem_append.mp hx with hx | hx
      · exact Or.inl hx
      · rw [List.mem_singleton] at hx
        subst hx
        exact Or.inr (Or.inl (boxFromChunk_is_box env element seg (base + st.2)))
    · rw [List.mem_singleton] at hx
      exact Or.inr (Or.inr hx)
  · rw [if_neg hc] at hx
    rcases List.mem_append.mp hx with hx | hx
    · exact Or.inl hx
    · rw [List.mem_singleton] at hx
      subst hx
      exact Or.inr (Or.inl (boxFromChunk_is_box env element seg (base + st.2)))

/-- The segment loop only adds boxes or the flagged hyphen penalty. -/
theorem pushSegments_shape (env : BreakEnv) (element : TextElement) (d : String)
    (hyphenWidth : Int) (subchunk : List Char) (base : Nat) :
    ∀ (acc : List ParagraphItem) x,
      x ∈ (pushSegments env element d hyphenWidth subchunk base acc).1 →
      x ∈ acc ∨ (∃ w dd, x = ParagraphItem.box w dd) ∨
      x = ParagraphItem.penalty hyphenWidth HYPHEN_PENALTY true := by
  have haux : ∀ (segs : List (List Char)) (st : List ParagraphItem × Nat) x,
      x ∈ (segs.foldl (pushSegStep env element hyphenWidth subchunk.length base) st).1 →
      x ∈ st.1 ∨ (∃ w dd, x = ParagraphItem.box w dd) ∨
      x = ParagraphItem.penalty hyphenWidth HYPHEN_PENALTY true := by
    intro segs
    induction segs with
    | nil => intro st x hx; exact Or.inl hx
    | cons seg rest ih =>
        intro st x hx
        rcases ih (pushSegStep env element hyphenWidth subchunk.length base st seg) x hx
          with h | h
        · exact pushSegStep_shape env element hyphenWidth subchunk.length base st seg x h
        · exact Or.inr h
  intro acc x hx
  exact haux (env.hyphenSegments d subchunk) (acc, 0) x hx

/-- The alphabetic-run loop only adds boxes or the flagged hyphen penalty. -/
theorem hyphLoop_shape (env : BreakEnv) (element : TextElement) (hyphenWidth : Int)
    (d : String) (chunk : List Char) (startIndex : Nat) :
    ∀ (fuel ib ia : Nat) (st : List ParagraphItem × List (Nat × Nat)) x,
      x ∈ (hyphLoop env element hyphenWidth d chunk startIndex fuel ib ia st).1 →
      x ∈ st.1 ∨ (∃ w dd, x = ParagraphItem.box w dd) ∨
      x = ParagraphItem.penalty hyphenWidth HYPHEN_PENALTY true := by
  intro fuel
  induction fuel with
  | zero => intro ib ia st x hx; exact Or.inl hx
  | succ fuel ih =>
      intro ib ia st x hx
      obtain ⟨acc, hidx⟩ := st
      by_cases hlt : ib < ia
      · rw [hyphLoop, if_pos hlt] at hx
        rcases ih _ _ _ x hx with h | h
        · simp only at h
          by_cases hc : ia < (findFrom env.isAlphabetic chunk ia).getD chunk.length
          · rw [if_pos hc] at h
            rcases List.mem_append.mp h with h | h
            · rcases pushSegments_shape env element d hyphenWidth _ _ acc x h with h2 | h2
              · exact Or.inl h2
              · exact Or.inr h2
            · rw [List.mem_singleton] at h
              subst h
              exact Or.inr (Or.inl (boxFromChunk_is_box env element _ _))
          · rw [if_neg hc] at h
            rcases pushSegments_shape env element d hyphenWidth _ _ acc x h with h2 | h2
            · exact Or.inl h2
            · exact Or.inr h2
        · exact Or.inr h
      · rw [hyphLoop, if_neg hlt] at hx
        exact Or.inl hx

/-- The dictionary pass only adds boxes or the flagged hyphen penalty. -/
theorem chunkDictPass_shape (env : BreakEnv) (dict : Option String)
    (element : TextElement) (hyphenWidth : Int) (chunk : List Char)
    (startIndex : Nat) (st : List ParagraphItem × List (Nat × Nat)) :
    ∀ x ∈ (chunkDictPass env dict element hyphenWidth chunk startIndex st).1,
      x ∈ st.1 ∨ (∃ w dd, x = ParagraphItem.box w dd) ∨
      x = ParagraphItem.penalty hyphenWidth HYPHEN_PENALTY true := by
  intro x hx
  cases dict with
  | none =>
      rw [chunkDictPass] at hx
      rcases List.mem_append.mp hx with h | h
      · exact Or.inl h
      · rw [List.mem_singleton] at h
        subst h
        exact Or.inr (Or.inl (boxFromChunk_is_box env element _ _))
  | some d =>
      rw [chunkDictPass] at hx
      rcases hyphLoop_shape env element hyphenWidth d chunk startIndex _ _ _ _ x hx
        with h | h
      · simp only at h
        by_cases hfirst : 0 < (findFrom env.isAlphabetic chunk 0).getD chunk.length
        · rw [if_pos hfirst] at h
          rcases List.mem_append.mp h with h | h
          · exact Or.inl h
          · rw [List.mem_singleton] at h
            subst h
            exact Or.inr (Or.inl (boxFromChunk_is_box env element _ _))
        · rw [if_neg hfirst] at h
          exact Or.inl h
      · exact Or.inr h

/-- Processing one chunk only adds boxes, the flagged hyphen penalty, or the
width-0 line-break penalties. -/
theorem processOneChunk_shape (env : BreakEnv) (dict : Option String)
    (element : TextElement) (hyphenWidth : Int) (chunk : List Char)
    (startIndex : Nat) (isHard : Bool)
    (st : List ParagraphItem × List (Nat × Nat)) :
    ∀ x ∈ (processOneChunk env dict element hyphenWidth chunk startIndex isHard st).1,
      x ∈ st.1 ∨ (∃ w dd, x = ParagraphItem.box w dd) ∨
      x = ParagraphItem.penalty hyphenWidth HYPHEN_PENALTY true ∨
      x = ParagraphItem.penalty 0 0 false ∨
      x = ParagraphItem.penalty 0 HYPHEN_PENALTY true := by
  intro x hx
  unfold processOneChunk at hx
  simp only at hx
  have hpass := chunkDictPass_shape env dict element hyphenWidth chunk startIndex st
  cases isHard with
  | true =>
      simp only [Bool.not_true] at hx
      rw [if_neg (by simp)] at hx
      rcases hpass x hx with h | h | h
      · exact Or.inl h
      · exact Or.inr (Or.inl h)
      · exact Or.inr (Or.inr (Or.inl h))
  | false =>
      simp only [Bool.not_false, if_true] at hx
      rcases List.mem_append.mp hx with h | h
      · rcases hpass x h with h2 | h2 | h2
        · exact Or.inl h2
        · exact Or.inr (Or.inl h2)
        · exact Or.inr (Or.inr (Or.inl h2))
      · rw [List.mem_singleton] at h
        by_cases hdash : chunk.getLast? = some '-'
        · rw [if_pos hdash] at h
          subst h
          refine Or.inr (Or.inr (Or.inr (Or.inr ?_)))
          norm_num [HYPHEN_PENALTY]
        · rw [if_neg hdash] at h
          subst h
          refine Or.inr (Or.inr (Or.inr (Or.inl ?_)))
          norm_num

/-- The chunk loop only adds boxes, the flagged hyphen penalty, or the
width-0 line-break penalties. -/
theorem processChunks_shape (env : BreakEnv) (dict : Option String)
    (element : TextElement) (hyphenWidth : Int) :
    ∀ (bks : List (Nat × Bool)) (startIndex : Nat)
      (st : List ParagraphItem × List (Nat × Nat)) x,
      x ∈ (processChunks env dict element hyphenWidth bks startIndex st).1 →
      x ∈ st.1 ∨ (∃ w dd, x = ParagraphItem.box w dd) ∨
      x = ParagraphItem.penalty hyphenWidth HYPHEN_PENALTY true ∨
      x = ParagraphItem.penalty 0 0 false ∨
      x = ParagraphItem.penalty 0 HYPHEN_PENALTY true := by
  intro bks
  induction bks with
  | nil => intro _ st x hx; exact Or.inl hx
  | cons bk rest ih =>
      intro startIndex st x hx
      obtain ⟨endIndex, isHard⟩ := bk
      rw [processChunks] at hx
      rcases ih endIndex _ x hx with h | h
      · rcases processOneChunk_shape env dict element hyphenWidth
          ((element.text.take endIndex).drop startIndex) startIndex isHard st x h
          with h2 | h2
        · exact Or.inl h2
        · exact Or.inr h2
      · exact Or.inr h

/-- One `insert_breaks` dispatch step only adds boxes, width-0 line-break
penalties, or — for a text box under a present dictionary — flagged penalties
of that element's rendered hyphen width. -/
theorem insertBreaksStep_shape (env : BreakEnv) (dict : Option String)
    (st : List ParagraphItem × List (Nat × Nat)) (itm : ParagraphItem) :
    ∀ x ∈ (insertBreaksStep env dict st itm).1,
      x ∈ st.1 ∨ x = itm ∨ (∃ w dd, x = ParagraphItem.box w dd) ∨
      x = ParagraphItem.penalty 0 0 false ∨
      x = ParagraphItem.penalty 0 HYPHEN_PENALTY true ∨
      (∃ e w, itm = ParagraphItem.box w (ParagraphElement.textElem e) ∧
        dict.isSome = true ∧
        x = ParagraphItem.penalty (env.hyphenWidthFor e) HYPHEN_PENALTY true) := by
  intro x hx
  match itm with
  | ParagraphItem.box w (ParagraphElement.textElem element) =>
      rw [insertBreaksStep] at hx
      rcases processChunks_shape env dict element _ _ 0 st x hx with h | h | h | h | h
      · exact Or.inl h
      · exact Or.inr (Or.inr (Or.inl h))
      · by_cases hd : dict.isSome = true
        · rw [if_pos hd] at h
          exact Or.inr (Or.inr (Or.inr (Or.inr (Or.inr ⟨element, w, rfl, hd, h⟩))))
        · rw [if_neg hd] at h
          exact Or.inr (Or.inr (Or.inr (Or.inr (Or.inl h))))
      · exact Or.inr (Or.inr (Or.inr (Or.inl h)))
      · exact Or.inr (Or.inr (Or.inr (Or.inr (Or.inl h))))
  | ParagraphItem.box w (ParagraphElement.imageElem e) =>
      simp only [insertBreaksStep] at hx
      rcases List.mem_append.mp hx with h | h
      · exact Or.inl h
      · rw [List.mem_singleton] at h
        exact Or.inr (Or.inl h)
  | ParagraphItem.box w ParagraphElement.nothing =>
      simp only [insertBreaksStep] at hx
      rcases List.mem_append.mp hx with h | h
      · exact Or.inl h
      · rw [List.mem_singleton] at h
        exact Or.inr (Or.inl h)
  | ParagraphItem.glue w s sh =>
      simp only [insertBreaksStep] at hx
      rcases List.mem_append.mp hx with h | h
      · exact Or.inl h
      · rw [List.mem_singleton] at h
        exact Or.inr (Or.inl h)
  | ParagraphItem.penalty w v f =>
      simp only [insertBreaksStep] at hx
      rcases List.mem_append.mp hx with h | h
      · exact Or.inl h
      · rw [List.mem_singleton] at h
        exact Or.inr (Or.inl h)

/-- Every item produced by `insert_breaks` is an input item, a box, a width-0
line-break penalty, or — only under a present dictionary — a flagged penalty
of value `HYPHEN_PENALTY` whose width is the rendered hyphen width of a text
box of the input. -/
theorem insertBreaks_shape (env : BreakEnv) (dict : Option String) :
    ∀ (items : List ParagraphItem) x, x ∈ (insertBreaks env dict items).1 →
      x ∈ items ∨ (∃ w dd, x = ParagraphItem.box w dd) ∨
      x = ParagraphItem.penalty 0 0 false ∨
      x = ParagraphItem.penalty 0 HYPHEN_PENALTY true ∨
      (∃ e w, ParagraphItem.box w (ParagraphElement.textElem e) ∈ items ∧
        dict.isSome = true ∧
        x = ParagraphItem.penalty (env.hyphenWidthFor e) HYPHEN_PENALTY true) := by
  have haux : ∀ (items : List ParagraphItem) (st : List ParagraphItem × List (Nat × Nat)) x,
      x ∈ (items.foldl (insertBreaksStep env dict) st).1 →
      x ∈ st.1 ∨ x ∈ items ∨ (∃ w dd, x = ParagraphItem.box w dd) ∨
      x = ParagraphItem.penalty 0 0 false ∨
      x = ParagraphItem.penalty 0 HYPHEN_PENALTY true ∨
      (∃ e w, ParagraphItem.box w (ParagraphElement.textElem e) ∈ items ∧
        dict.isSome = true ∧
        x = ParagraphItem.penalty (env.hyphenWidthFor e) HYPHEN_PENALTY true) := by
    intro items
    induction items with
    | nil => intro st x hx; exact Or.inl hx
    | cons itm rest ih =>
        intro st x hx
        rcases ih (insertBreaksStep env dict st itm) x hx with h | h | h | h | h | h
        · rcases insertBreaksStep_shape env dict st itm x h with h2 | h2 | h2 | h2 | h2 | h2
          · exact Or.inl h2
          · exact Or.inr (Or.inl (by rw [h2]; exact List.mem_cons_self itm rest))
          · exact Or.inr (Or.inr (Or.inl h2))
          · exact Or.inr (Or.inr (Or.inr (Or.inl h2)))
          · exact Or.inr (Or.inr (Or.inr (Or.inr (Or.inl h2))))
          · obtain ⟨e, w, hitm, hd, hxe⟩ := h2
            exact Or.inr (Or.inr (Or.inr (Or.inr (Or.inr
              ⟨e, w, by rw [← hitm]; exact List.mem_cons_self itm rest, hd, hxe⟩))))
        · exact Or.inr (Or.inl (List.mem_cons_of_mem itm h))
        · exact Or.inr (Or.inr (Or.inl h))
        · exact Or.inr (Or.inr (Or.inr (Or.inl h)))
        · exact Or.inr (Or.inr (Or.inr (Or.inr (Or.inl h))))
        · obtain ⟨e, w, hmem, hd, hxe⟩ := h
          exact Or.inr (Or.inr (Or.inr (Or.inr (Or.inr
            ⟨e, w, List.mem_cons_of_mem itm hmem, hd, hxe⟩))))
  intro items x hx
  rcases haux items ([], []) x hx with h | h
  · exact absurd h (by simp)
  · exact h

/-- A non-nil list is not empty. -/
theorem isEmpty_false_of_ne_nil {α : Type} (l : List α) (h : l ≠ []) :
    l.isEmpty = false := by
  cases l with
  | nil => exact absurd rfl h
  | cons a r => rfl

/-- C5 (amended): the fallback chain of `place_paragraphs`.  Optimal fit runs
first at stretch tolerance 1.26 for justified paragraphs and at 10.0 for every
other alignment; if it yields no breakpoints, optional breaks are inserted
(the hyphenation dictionary is consulted only for Justify; between dictionary
segments flagged penalties of the rendered hyphen's width and value 50 appear,
and all other inserted penalties are zero-width line-break penalties) and
optimal fit is retried at the same tolerance; if still infeasible, first fit
runs at the same tolerance; if still infeasible, boxes wider than the smaller
of the first two line widths are cropped and first fit is retried at tolerance
1.26. -/
theorem C5_fallback_chain (env : BreakEnv) (ta : TextAlign) (language : Option String)
    (items : List ParagraphItem) (lineLengths : List Int) :
    stretchTolerance TextAlign.justify = STRETCH_TOLERANCE ∧
    (ta ≠ TextAlign.justify → stretchTolerance ta = 10) ∧
    (ta ≠ TextAlign.justify → dictFor env ta language = none) ∧
    (env.totalFit items lineLengths (stretchTolerance ta) 0 ≠ [] →
      breakParagraph env ta language items lineLengths =
        ⟨env.totalFit items lineLengths (stretchTolerance ta) 0, items, []⟩) ∧
    (env.totalFit items lineLengths (stretchTolerance ta) 0 = [] →
      env.totalFit (insertBreaks env (dictFor env ta language) items).1 lineLengths
          (stretchTolerance ta) 0 ≠ [] →
      breakParagraph env ta language items lineLengths =
        ⟨env.totalFit (insertBreaks env (dictFor env ta language) items).1 lineLengths
            (stretchTolerance ta) 0,
          (insertBreaks env (dictFor env ta language) items).1,
          (insertBreaks env (dictFor env ta language) items).2⟩) ∧
    (env.totalFit items lineLengths (stretchTolerance ta) 0 = [] →
      env.totalFit (insertBreaks env (dictFor env ta language) items).1 lineLengths
          (stretchTolerance ta) 0 = [] →
      env.standardFit (insertBreaks env (dictFor env ta language) items).1 lineLengths
          (stretchTolerance ta) ≠ [] →
      breakParagraph env ta language items lineLengths =
        ⟨env.standardFit (insertBreaks env (dictFor env ta language) items).1 lineLengths
            (stretchTolerance ta),
          (insertBreaks env (dictFor env ta language) items).1,
          (insertBreaks env (dictFor env ta language) items).2⟩) ∧
    (env.totalFit items lineLengths (stretchTolerance ta) 0 = [] →
      env.totalFit (insertBreaks env (dictFor env ta language) items).1 lineLengths
          (stretchTolerance ta) 0 = [] →
      env.standardFit (insertBreaks env (dictFor env ta language) items).1 lineLengths
          (stretchTolerance ta) = [] →
      breakParagraph env ta language items lineLengths =
        ⟨env.standardFit
            (cropOversized env (min (lineLengths.getD 0 0) (lineLengths.getD 1 0))
              (insertBreaks env (dictFor env ta language) items).1)
            lineLengths STRETCH_TOLERANCE,
          cropOversized env (min (lineLengths.getD 0 0) (lineLengths.getD 1 0))
            (insertBreaks env (dictFor env ta language) items).1,
          (insertBreaks env (dictFor env ta language) items).2⟩) ∧
    (∀ x ∈ (insertBreaks env (dictFor env ta language) items).1,
      x ∈ items ∨ (∃ w dd, x = ParagraphItem.box w dd) ∨
      x = ParagraphItem.penalty 0 0 false ∨
      x = ParagraphItem.penalty 0 HYPHEN_PENALTY true ∨
      (∃ e w, ParagraphItem.box w (ParagraphElement.textElem e) ∈ items ∧
        (dictFor env ta language).isSome = true ∧
        x = ParagraphItem.penalty (env.hyphenWidthFor e) HYPHEN_PENALTY true)) := by
  refine ⟨rfl, ?_, ?_, ?_, ?_, ?_, ?_, ?_⟩
  · intro h
    rw [stretchTolerance, if_neg h]
  · intro h
    rw [dictFor, if_neg h]
  · intro h
    have hf := isEmpty_false_of_ne_nil _ h
    simp [breakParagraph, hf]
  · intro h1 h2
    have ht : (env.totalFit items lineLengths (stretchTolerance ta) 0).isEmpty = true := by
      rw [h1]; rfl
    have hf := isEmpty_false_of_ne_nil _ h2
    simp [breakParagraph, ht, hf]
  · intro h1 h2 h3
    have ht1 : (env.totalFit items lineLengths (stretchTolerance ta) 0).isEmpty = true := by
      rw [h1]; rfl
    have ht2 : (env.totalFit (insertBreaks env (dictFor env ta language) items).1
        lineLengths (stretchTolerance ta) 0).isEmpty = true := by
      rw [h2]; rfl
    have hf := isEmpty_false_of_ne_nil _ h3
    simp [breakParagraph, ht1, ht2, hf]
  · intro h1 h2 h3
    have ht1 : (env.totalFit items lineLengths (stretchTolerance ta) 0).isEmpty = true := by
      rw [h1]; rfl
    have ht2 : (env.totalFit (insertBreaks env (dictFor env ta language) items).1
        lineLengths (stretchTolerance ta) 0).isEmpty = true := by
      rw [h2]; rfl
    have ht3 : (env.standardFit (insertBreaks env (dictFor env ta language) items).1
        lineLengths (stretchTolerance ta)).isEmpty = true := by
      rw [h3]; rfl
    simp [breakParagraph, ht1, ht2, ht3]
  · exact insertBreaks_shape env (dictFor env ta language) items

/-- Witness for C5: an environment whose optimal fit immediately succeeds makes
the chain stop after the first stage, returning its breakpoints with the items
untouched. -/
theorem C5_witness :
    breakParagraph okEnv TextAlign.justify none [] [] =
      ⟨[bp0], [], []⟩ :=
  (C5_fallback_chain okEnv TextAlign.justify none [] []).2.2.2.1 (by decide)

/-- Counterexample for C5 as stated: for a left-aligned paragraph the first
optimal-fit call runs at stretch tolerance 10, not 1.26 — an environment whose
optimal fit succeeds only at tolerance 10 produces breakpoints, although at
tolerance 1.26 it finds none. -/
theorem C5_counterexample :
    stretchTolerance TextAlign.left = 10 ∧
    stretchTolerance TextAlign.left ≠ STRETCH_TOLERANCE ∧
    (breakParagraph spyEnv TextAlign.left none [] []).bps = [bp0] ∧
    spyEnv.totalFit [] [] STRETCH_TOLERANCE 0 = [] := by
  refine ⟨rfl, ?_, ?_, ?_⟩
  · intro hcontra
    have h10 : stretchTolerance TextAlign.left = 10 := rfl
    rw [h10, STRETCH_TOLERANCE] at hcontra
    norm_num at hcontra
  · have h1 : spyEnv.totalFit [] [] (stretchTolerance TextAlign.left) 0 = [bp0] := by
      show (if stretchTolerance TextAlign.left = (10 : ℚ) then [bp0] else []) = [bp0]
      exact if_pos rfl
    have hf : (spyEnv.totalFit [] [] (stretchTolerance TextAlign.left) 0).isEmpty
        = false := by
      rw [h1]; rfl
    simp [breakParagraph, hf, h1]
  · show (if STRETCH_TOLERANCE = (10 : ℚ) then [bp0] else []) = []
    rw [if_neg (by rw [STRETCH_TOLERANCE]; norm_num)]

/-- Witness for C7: a concrete 5-by-5 left float in a 30-pixel band on an empty
page is recorded at page index 3 with both clamp bounds satisfied. -/
theorem C7_witness :
    (Rect.mk 100 0 105 5).maxX - (Rect.mk 100 0 105 5).minX ≤ Int.tdiv ctxW.lineWidth 3 ∧
    (Rect.mk 100 0 105 5).maxY - (Rect.mk 100 0 105 5).minY ≤
      Int.tdiv (2 * (ctxW.rectMaxY - ctxW.spaceBottom - (Rect.mk 100 0 105 5).minY)) 3 :=
  ((C7_float_clamped ctxW stEmpty [elemW]).1 (Rect.mk 100 0 105 5)
      (by decide)).resolve_left (by decide)

/-- Witness for C10 at the concrete spine `[3, 4]` and offset 7 (the total
size). -/
theorem C10_witness :
    words [3, 4] (fun _ => []) (fun _ => none) (fun _ s => s) (Location.exact 7) = none ∧
    pixmap (fun _ => ()) [3, 4] (fun _ => []) (fun _ => none) (fun _ s => s)
      (Location.exact 7) = none :=
  ⟨(C10_out_of_range (fun _ => ()) [3, 4] (fun _ => []) (fun _ => none) (fun _ s => s) 7
      (by decide)).2.2.1,
   (C10_out_of_range (fun _ => ()) [3, 4] (fun _ => []) (fun _ => none) (fun _ s => s) 7
      (by decide)).2.2.2.2.2⟩

end Plato
